import Mathlib

/-!
Verification of the lock-free ordered list (`List.h`) and skip list
(`Skiplist.h`) of this repository, in a sequential shallow embedding.

The embedding rules used throughout:

* Machine integers: `uint64_t` keys are modelled as `Nat`; the only place
  where width matters is `SkipList::add`, whose key parameter is declared
  `int` in the source (all other operations take `uint64_t`).  The caller's
  `uint64_t` argument is converted to `int` (modular wrap to 32 bits, as
  every mainstream C++ implementation does and C++20 mandates) and then back
  to `uint64_t` (sign extension) when it is passed to `find` and to the
  `SNode` constructor.  `keyConv` below models that round trip.
* Payloads (`T` / `void* data`): the templates are instantiated at `T = Nat`.
  A `T*` is modelled as `Option Nat` (`none` = null pointer).
* Atomics: the code is interpreted sequentially (one thread, no
  interference), so `compareAndSet` is "check expected pair, then write";
  a `get`/`getReference`/`getMark` is a plain read; retirement
  (`EpochManager::retire*`) does not mutate the shared structure (the stub
  reclaimer is a no-op) and is recorded, where a claim needs it, in the
  operation's return value.
* The `EpochManager` epoch protection depth is modelled by an `epoch : Int`
  counter carried in the container state: `enterEpoch` adds one, `leaveEpoch`
  subtracts one, exactly at the call sites present in the source.
* Unbounded `while` loops become fuel-indexed recursions returning `Option`;
  `none` means the fuel ran out or the C++ would have dereferenced a null
  pointer (undefined behaviour).  Loops whose only exit in a sequential
  execution is a CAS that cannot fail are still modelled with the real CAS
  check.
-/

/-- `MAX_LEVEL` from Skiplist.h. -/
def MAXL : Nat := 16

/-- `UINT64_MAX`, the tail sentinel key. -/
def UMAX : Nat := 2 ^ 64 - 1

/-- The key conversion silently performed by `SkipList::add(int key, T x)`:
the caller's `uint64_t` value is narrowed to a 32-bit `int` (modular) and,
inside `add`, widened back to `uint64_t` (sign extension) when passed to
`find` and to the `SNode` constructor. -/
def keyConv (k : Nat) : Nat :=
  let low := k % 2 ^ 32
  if low < 2 ^ 31 then low else low + (2 ^ 64 - 2 ^ 32)

theorem keyConv_small (k : Nat) (h : k < 2 ^ 31) : keyConv k = k := by
  have hlt : k < 2 ^ 32 := lt_trans h (by norm_num)
  unfold keyConv
  rw [Nat.mod_eq_of_lt hlt]
  simp only [if_pos h]

/-! ## The ordered list (`List.h`)

A list node holds `(key, data, next)` where `next` is a markable pointer;
the mark stored in a node's own `next` cell is the node's logical-deletion
bit.  Sequentially the physical chain is
`head (key 0) -> e₁ -> … -> eₙ -> tail (key UINT64_MAX) -> null`,
so the state is the sequence of interior entries.  Head and tail are
`LNode(0, T())` and `LNode(UINT64_MAX, T())`; with `T = Nat` the
default-constructed payload is `0`, and neither sentinel is ever marked by
the operations modelled here (`List::remove` marks only a node whose key
equals the argument; see the note on `UINT64_MAX` below). -/

structure LEntry where
  key : Nat
  data : Nat
  marked : Bool
deriving DecidableEq

structure LSt where
  entries : List LEntry
  epoch : Int
deriving DecidableEq

/-- The physical node sequence a traversal visits: head sentinel, the
interior entries, the tail sentinel.  Sentinels carry the default payload
`T() = 0` and an unmarked `next` cell. -/
def Lphys (st : LSt) : List LEntry :=
  ⟨0, 0, false⟩ :: st.entries ++ [⟨UMAX, 0, false⟩]

/-- `List::Window::find`: walk from head; every marked node encountered is
physically unlinked (the snip CAS on the predecessor cannot fail
sequentially: the predecessor is unmarked and its pointer was just read);
stop at the first unmarked node with `key ≥ k`.  Returns the kept prefix
(strictly below `k`, cleaned) and the suffix starting at `curr`
(`[]` means `curr` is the tail sentinel). -/
def findW (k : Nat) : List LEntry → List LEntry × List LEntry
  | [] => ([], [])
  | e :: rest =>
    if e.marked then findW k rest
    else if e.key < k then
      let (b, a) := findW k rest
      (e :: b, a)
    else ([], e :: rest)

/-- `List::add`.  `enterEpoch` at the top; on the duplicate path the source
returns `false` without calling `leaveEpoch` (the epoch counter stays
incremented); otherwise a fresh unmarked node is linked before `curr` (the
CAS cannot fail sequentially) and `leaveEpoch` runs. -/
def Ladd (st : LSt) (k v : Nat) : Bool × LSt :=
  let ep := st.epoch + 1
  let (b, a) := findW k st.entries
  let currKey := match a with | [] => UMAX | e :: _ => e.key
  if currKey = k then
    (false, { entries := b ++ a, epoch := ep })
  else
    (true, { entries := b ++ ⟨k, v, false⟩ :: a, epoch := ep - 1 })

/-- `List::remove`.  `enterEpoch`; `find`; if `curr.key ≠ key` leave and
return `false`; otherwise `attemptMark` the node (cannot fail sequentially),
snip it (the predecessor CAS cannot fail sequentially), retire it, leave,
return `true`.  NOTE: for `k = UINT64_MAX` the source would mark and unlink
the *tail sentinel*; that state is outside this embedding, and every theorem
below restricts keys to the user domain `0 < k < UINT64_MAX`. -/
def Lremove (st : LSt) (k : Nat) : Bool × LSt :=
  let ep := st.epoch + 1
  let (b, a) := findW k st.entries
  match a with
  | [] =>
    if UMAX = k then (true, { entries := b, epoch := ep - 1 })
    else (false, { entries := b, epoch := ep - 1 })
  | e :: rest =>
    if e.key = k then (true, { entries := b ++ rest, epoch := ep - 1 })
    else (false, { entries := b ++ e :: rest, epoch := ep - 1 })

/-- Helper for `List::contains`: walk the physical sequence; at the first
node with `key ≥ k` answer `key = k ∧ ¬marked` where `marked` is that
node's own mark (the source reads `curr->next.getMark()`); walking past the
tail reaches the null pointer and returns `false`. -/
def lconsAux (k : Nat) : List LEntry → Bool
  | [] => false
  | e :: rest => if k ≤ e.key then (e.key = k && !e.marked) else lconsAux k rest

/-- `List::contains` (pure read, no epoch bracketing in the source). -/
def Lcontains (st : LSt) (k : Nat) : Bool :=
  lconsAux k (Lphys st)

/-- Helper for `List::get`: the loop `while (curr->key < key) curr =
curr->next.get(marked)` overwrites `marked` with the mark of the node it
advances *from*, so on exit `marked` is the mark of the physical
*predecessor* of the final `curr`, not of `curr` itself. -/
def lgetAux (k : Nat) (marked : Bool) : List LEntry → Option Nat
  | [] => none
  | e :: rest =>
    if e.key < k then lgetAux k e.marked rest
    else if e.key = k ∧ marked = false then some e.data else none

/-- `List::get` (pure read): returns the payload pointer (`some data`) when
`curr.key = key ∧ !marked`, with `marked` initialised to `false` and updated
as in `lgetAux`. -/
def Lget (st : LSt) (k : Nat) : Option Nat :=
  lgetAux k false (Lphys st)

/-- The live (unmarked) key/value pairs of an entry sequence. -/
def liveMap (es : List LEntry) : List (Nat × Nat) :=
  (es.filter (fun e => !e.marked)).map (fun e => (e.key, e.data))

/-- Strict key-sortedness of the interior entries, within the open interval
bounded by the sentinel keys (marks arbitrary). -/
def LSorted (es : List LEntry) : Prop :=
  List.Chain' (· < ·) (0 :: es.map LEntry.key ++ [UMAX])

/-! ## The skip list (`Skiplist.h`)

Nodes live in a heap indexed by `Nat` ids; a pointer is `Option Nat`
(`none` = null).  Each node carries `key`, `data` (`void*`, i.e.
`Option Nat`), `topLevel`, and one markable cell per level (the `SNode`
constructor initialises all `MAX_LEVEL + 1` cells to `(null, false)`).
The container state also carries the allocator cursor `fresh` and the
epoch-protection depth. -/

structure SCell where
  ptr : Option Nat
  mark : Bool
deriving DecidableEq

structure SNode where
  key : Nat
  data : Option Nat
  top : Nat
  next : Nat → SCell

structure SL where
  heap : Nat → SNode
  headId : Nat
  tailId : Nat
  fresh : Nat
  epoch : Int

/-- Read one markable cell (`node->next[level].get / getReference / getMark`). -/
def SL.cell (s : SL) (n ℓ : Nat) : SCell := (s.heap n).next ℓ

/-- Overwrite one markable cell. -/
def SL.setCell (s : SL) (n ℓ : Nat) (c : SCell) : SL :=
  { s with
    heap :=
      Function.update s.heap n
        ({ s.heap n with next := Function.update (s.heap n).next ℓ c }) }

/-- `SNMarkablePointer::compareAndSet`, sequentially: compare the full
(pointer, mark) pair against the expectation, and write the new pair on
success. -/
def SL.cas (s : SL) (n ℓ : Nat) (expP newP : Option Nat) (expM newM : Bool) :
    Bool × SL :=
  let c := s.cell n ℓ
  if c.ptr = expP ∧ c.mark = expM then (true, s.setCell n ℓ ⟨newP, newM⟩)
  else (false, s)

/-- `SNMarkablePointer::attemptMark`, sequentially: fail iff the pointer
part diverges; fast-path success when the mark already matches; otherwise
swap in the same pointer with the new mark (the inner compare-exchange
cannot lose sequentially). -/
def SL.attemptMark (s : SL) (n ℓ : Nat) (expP : Option Nat) (newM : Bool) :
    Bool × SL :=
  let c := s.cell n ℓ
  if c.ptr ≠ expP then (false, s)
  else if c.mark = newM then (true, s)
  else (true, s.setCell n ℓ ⟨c.ptr, newM⟩)

/-- The freshly constructed `SkipList`: head (key 0) and tail
(key `UINT64_MAX`) at every level, `head->next[i] = (tail, false)`. -/
def mkSkipList : SL :=
  { heap := fun i =>
      if i = 0 then ⟨0, none, MAXL, fun _ => ⟨some 1, false⟩⟩
      else if i = 1 then ⟨UMAX, none, MAXL, fun _ => ⟨none, false⟩⟩
      else ⟨0, none, 0, fun _ => ⟨none, false⟩⟩
    headId := 0
    tailId := 1
    fresh := 2
    epoch := 0 }

/-- `find`'s guarded successor read
`succ = (level <= curr->topLevel) ? curr->next[level].get(marked) : tail`;
`prevM` is the value the local `marked` keeps when the ternary takes the
`tail` branch (freshly `false` at the loop head, the previous value inside
the unlink loop). -/
def succOf (s : SL) (curr ℓ : Nat) (prevM : Bool) : Option Nat × Bool :=
  if ℓ ≤ (s.heap curr).top then ((s.cell curr ℓ).ptr, (s.cell curr ℓ).mark)
  else (some s.tailId, prevM)

/-- `find`'s inner `while (marked)` unlink loop at one level.
`Sum.inl s` = the snip CAS failed, `goto RETRY`; `Sum.inr (s, curr?, succ?)`
= loop exited (with `curr? = none` when the re-read produced a null `curr`,
which the caller then dereferences — undefined behaviour, `none` overall). -/
def unlinkL (k ℓ : Nat) : Nat → SL → Nat → Nat → Option Nat → Bool →
    Option (Sum SL (SL × Option Nat × Option Nat))
  | 0, _, _, _, _, _ => none
  | fuel + 1, s, pred, curr, succ?, marked =>
    if marked then
      let (ok, s') := s.cas pred ℓ (some curr) succ? false false
      if ok then
        match (s'.cell pred ℓ).ptr with
        | none => some (Sum.inr (s', none, succ?))
        | some c =>
          let (succ2, m2) := succOf s' c ℓ true
          unlinkL k ℓ fuel s' pred c succ2 m2
      else some (Sum.inl s')
    else some (Sum.inr (s, some curr, succ?))

/-- `find`'s per-level advance loop (`while (true) { … }` at lines
182–204): read the guarded successor, run the unlink loop, then either
advance (`pred = curr; curr = succ`) or break with the current window. -/
def levelLoop (k ℓ : Nat) : Nat → SL → Nat → Nat →
    Option (Sum SL (SL × Nat × Nat))
  | 0, _, _, _ => none
  | fuel + 1, s, pred, curr =>
    let (succ?, m) := succOf s curr ℓ false
    match unlinkL k ℓ (fuel + 1) s pred curr succ? m with
    | none => none
    | some (Sum.inl s') => some (Sum.inl s')
    | some (Sum.inr (s', currO, succO)) =>
      match currO with
      | none => none
      | some c =>
        if (s'.heap c).key < k then
          match succO with
          | none => none
          | some c2 => levelLoop k ℓ fuel s' c c2
        else some (Sum.inr (s', pred, c))

/-- One level of `find`'s outer loop: `pred = head`,
`curr = pred->next[level].getReference()` (null `curr` would be
dereferenced, i.e. undefined behaviour), then the advance loop. -/
def procLevel (k fuel ℓ : Nat) (s : SL) : Option (Sum SL (SL × Nat × Nat)) :=
  match (s.cell s.headId ℓ).ptr with
  | none => none
  | some c0 => levelLoop k ℓ fuel s s.headId c0

/-- `find`'s outer `for (level = MAX_LEVEL; level >= 0; --level)` loop;
`pred` is reset to `head` at every level, and the window is recorded in the
`preds`/`succs` arrays.  The value carried out of level 0 is the final
`curr`. -/
def levelsDown (k fuel : Nat) :
    Nat → SL → (Nat → Nat) → (Nat → Nat) →
    Option (Sum SL (SL × (Nat → Nat) × (Nat → Nat) × Nat))
  | 0, s, preds, succs =>
    match procLevel k fuel 0 s with
    | none => none
    | some (Sum.inl s') => some (Sum.inl s')
    | some (Sum.inr (s', p, c)) =>
      some (Sum.inr (s', Function.update preds 0 p, Function.update succs 0 c, c))
  | ℓ' + 1, s, preds, succs =>
    match procLevel k fuel (ℓ' + 1) s with
    | none => none
    | some (Sum.inl s') => some (Sum.inl s')
    | some (Sum.inr (s', p, c)) =>
      levelsDown k fuel ℓ' s'
        (Function.update preds (ℓ' + 1) p) (Function.update succs (ℓ' + 1) c)

/-- `SkipList::find(key, preds, succs)`: run the level sweep, restarting
from scratch on `goto RETRY`; return the (possibly cleaned) state, the
`curr->key == key` answer, and the recorded window arrays. -/
def findS (k : Nat) : Nat → SL → Option (SL × Bool × (Nat → Nat) × (Nat → Nat))
  | 0, _ => none
  | rfuel + 1, s =>
    match levelsDown k (rfuel + 1) MAXL s (fun _ => 0) (fun _ => 0) with
    | none => none
    | some (Sum.inl s') => findS k rfuel s'
    | some (Sum.inr (s', preds, succs, c)) =>
      some (s', (s'.heap c).key == k, preds, succs)

/-- `add`'s Step 1: `newNode->next[level].set(succs[level], false)` for
`level = 0 .. topLevel` (the `set` of a cell retires the old pair and has no
other shared effect). -/
def initNext (s : SL) (n : Nat) (succs : Nat → Nat) : Nat → SL
  | 0 => s.setCell n 0 ⟨some (succs 0), false⟩
  | ℓ + 1 => (initNext s n succs ℓ).setCell n (ℓ + 1) ⟨some (succs (ℓ + 1)), false⟩

/-- `add`'s Step 3 inner `while (true)` for one higher level: CAS
`preds[level]` from `(succs[level], live)` to `(newNode, live)`; on failure
re-run `find` and retry the same level. -/
def addLevel (k n ℓ : Nat) : Nat → SL → (Nat → Nat) → (Nat → Nat) →
    Option (SL × (Nat → Nat) × (Nat → Nat))
  | 0, _, _, _ => none
  | fuel + 1, s, preds, succs =>
    let (ok, s') := s.cas (preds ℓ) ℓ (some (succs ℓ)) (some n) false false
    if ok then some (s', preds, succs)
    else
      match findS k fuel s' with
      | none => none
      | some (s'', _, p', q') => addLevel k n ℓ fuel s'' p' q'

/-- `add`'s Step 3 outer loop over levels `1 .. topLevel` (`cnt` counts the
levels still to install, `ℓ` is the next one). -/
def addLevels (k n : Nat) : Nat → Nat → Nat → SL → (Nat → Nat) → (Nat → Nat) →
    Option SL
  | 0, _, _, s, _, _ => some s
  | cnt + 1, ℓ, fuel, s, preds, succs =>
    match addLevel k n ℓ fuel s preds succs with
    | none => none
    | some (s', p', q') => addLevels k n cnt (ℓ + 1) fuel s' p' q'

/-- `SkipList::add`'s outer `while (true)` retry loop.  `k` is already the
converted key, `lvl` the height chosen by `randomLevel()`; `n?` remembers
the node allocated on a previous attempt (the source allocates at most
once). -/
def addLoop (k v lvl : Nat) : Nat → SL → Option Nat → Option (Bool × SL)
  | 0, _, _ => none
  | fuel + 1, s, n? =>
    match findS k fuel s with
    | none => none
    | some (s1, found, preds, succs) =>
      if found then some (false, { s1 with epoch := s1.epoch - 1 })
      else
        let (n, s2) :=
          match n? with
          | some n => (n, s1)
          | none =>
            (s1.fresh,
              { s1 with
                fresh := s1.fresh + 1
                heap :=
                  Function.update s1.heap s1.fresh
                    ⟨k, some v, lvl, fun _ => ⟨none, false⟩⟩ })
        let s3 := initNext s2 n succs lvl
        let (ok, s4) := s3.cas (preds 0) 0 (some (succs 0)) (some n) false false
        if ok then
          match addLevels k n lvl 1 fuel s4 preds succs with
          | none => none
          | some s5 => some (true, { s5 with epoch := s5.epoch - 1 })
        else addLoop k v lvl fuel s4 (some n)

/-- `SkipList::add(int key, T x)` with the height oracle's answer passed in
as `lvl` (the source draws it from `randomLevel()`): `enterEpoch`, convert
the key through `int` (see `keyConv`), then run the retry loop.  The
successful and the duplicate return paths both call `leaveEpoch`. -/
def addS (fuel : Nat) (s : SL) (rawKey v lvl : Nat) : Option (Bool × SL) :=
  addLoop (keyConv rawKey) v lvl fuel { s with epoch := s.epoch + 1 } none

/-- `remove`'s Step 1 inner do/while at one level: read `(succ, marked)`
from the victim's cell; stop if already marked; otherwise `attemptMark`
until it sticks. -/
def markOne (n ℓ : Nat) : Nat → SL → Option SL
  | 0, _ => none
  | fuel + 1, s =>
    let c := s.cell n ℓ
    if c.mark then some s
    else
      let (ok, s') := s.attemptMark n ℓ c.ptr true
      if ok then some s' else markOne n ℓ fuel s'

/-- `remove`'s Step 1: mark the victim's links from `topLevel` down to 1. -/
def markHigh (n : Nat) : Nat → Nat → SL → Option SL
  | 0, _, s => some s
  | ℓ + 1, fuel, s =>
    match markOne n (ℓ + 1) fuel s with
    | none => none
    | some s' => markHigh n ℓ fuel s'

/-- `remove`'s Step 2 do/while at the bottom level: if the bottom mark is
already set another thread won and the call returns `false` (`Sum.inl`;
note the source returns there *without* `leaveEpoch`); otherwise CAS
`(succ, live) → (succ, deleted)` (`Sum.inr`). -/
def markBottom (n : Nat) : Nat → SL → Option (Sum SL SL)
  | 0, _ => none
  | fuel + 1, s =>
    let c := s.cell n 0
    if c.mark then some (Sum.inl s)
    else
      let (ok, s') := s.cas n 0 c.ptr c.ptr false true
      if ok then some (Sum.inr s') else markBottom n fuel s'

/-- `remove`'s Step 3 over levels `0 .. topLevel` (`cnt` counts levels left,
`ℓ` is the next): re-read the victim's successor and CAS the recorded
predecessor past it; any failure restarts the whole remove
(`goto RETRY_REMOVE`, `Sum.inl`). -/
def unlinkAll (n : Nat) (preds : Nat → Nat) : Nat → Nat → SL → Sum SL SL
  | 0, _, s => Sum.inr s
  | cnt + 1, ℓ, s =>
    let succ := (s.cell n ℓ).ptr
    let (ok, s') := s.cas (preds ℓ) ℓ (some n) succ false false
    if ok then unlinkAll n preds cnt (ℓ + 1) s'
    else Sum.inl s'

/-- `SkipList::remove`'s retry loop.  The third component of a successful
result is the id of the node handed to `retireSNodeBase`. -/
def removeLoop (k : Nat) : Nat → SL → Option (Bool × SL × Option Nat)
  | 0, _ => none
  | fuel + 1, s =>
    match findS k fuel s with
    | none => none
    | some (s1, found, preds, succs) =>
      if found then
        let n := succs 0
        match markHigh n ((s1.heap n).top) fuel s1 with
        | none => none
        | some s2 =>
          match markBottom n fuel s2 with
          | none => none
          | some (Sum.inl s3) => some (false, s3, none)
          | some (Sum.inr s3) =>
            match unlinkAll n preds ((s3.heap n).top + 1) 0 s3 with
            | Sum.inl s4 => removeLoop k fuel s4
            | Sum.inr s4 => some (true, { s4 with epoch := s4.epoch - 1 }, some n)
      else some (false, { s1 with epoch := s1.epoch - 1 }, none)

/-- `SkipList::remove(uint64_t key)`: `enterEpoch`, then the retry loop. -/
def removeS (fuel : Nat) (s : SL) (k : Nat) : Option (Bool × SL × Option Nat) :=
  removeLoop k fuel { s with epoch := s.epoch + 1 }

/-- `contains`'s inner `while (marked)` skip loop (no unlinking): advance
`curr` along its own `next[level]` reference while the observed mark is
set; a null `curr` breaks out. -/
def cSkipLoop (ℓ : Nat) : Nat → SL → Nat → Option Nat → Bool →
    Option (Option Nat × Option Nat)
  | 0, _, _, _, _ => none
  | fuel + 1, s, curr, succ?, marked =>
    if marked then
      match (s.cell curr ℓ).ptr with
      | none => some (none, succ?)
      | some c2 =>
        let cc := s.cell c2 ℓ
        cSkipLoop ℓ fuel s c2 cc.ptr cc.mark
    else some (some curr, succ?)

/-- `contains`'s per-level advance loop; `pred` is carried across levels.
Note the unguarded cell read `curr->next[level].get(marked)` (no
`topLevel` check here, unlike `find`). -/
def cWalk (k ℓ : Nat) : Nat → SL → Nat → Option Nat → Option (Nat × Option Nat)
  | 0, _, _, _ => none
  | fuel + 1, s, pred, currO =>
    match currO with
    | none => some (pred, none)
    | some curr =>
      let c := s.cell curr ℓ
      match cSkipLoop ℓ (fuel + 1) s curr c.ptr c.mark with
      | none => none
      | some (currO', succO) =>
        match currO' with
        | none => some (pred, none)
        | some curr' =>
          if (s.heap curr').key < k then cWalk k ℓ fuel s curr' succO
          else some (pred, some curr')

/-- `contains`'s level sweep `for (level = MAX_LEVEL - 1; level >= 0; --level)`
(it starts at 15, one below `find`), returning the final `curr`. -/
def cLevels (k fuel : Nat) : Nat → SL → Nat → Option (Option Nat)
  | ℓ, s, pred =>
    match cWalk k ℓ fuel s pred ((s.cell pred ℓ).ptr) with
    | none => none
    | some (pred', currO') =>
      match ℓ with
      | 0 => some currO'
      | ℓ' + 1 => cLevels k fuel ℓ' s pred'

/-- `SkipList::contains(uint64_t key)` (pure read; the final
`curr->key == key` dereferences `curr`, so a null final `curr` is
undefined behaviour). -/
def containsS (fuel : Nat) (s : SL) (k : Nat) : Option Bool :=
  match cLevels k fuel (MAXL - 1) s s.headId with
  | none => none
  | some none => none
  | some (some c) => some ((s.heap c).key == k)

/-- `get`'s inner `while (marked)` skip loop: `curr = succ`, break on null
or tail, else re-read. -/
def gSkipLoop (ℓ : Nat) : Nat → SL → Option Nat → Option Nat → Bool →
    Option (Option Nat × Option Nat)
  | 0, _, _, _, _ => none
  | fuel + 1, s, currO, succO, marked =>
    if marked then
      match succO with
      | none => some (none, succO)
      | some c =>
        if c = s.tailId then some (some c, succO)
        else
          let cc := s.cell c ℓ
          gSkipLoop ℓ fuel s (some c) cc.ptr cc.mark
    else some (currO, succO)

/-- `get`'s per-level loop `while (curr != nullptr && curr != tail)`. -/
def gWalk (k ℓ : Nat) : Nat → SL → Nat → Option Nat → Option (Nat × Option Nat)
  | 0, _, _, _ => none
  | fuel + 1, s, pred, currO =>
    match currO with
    | none => some (pred, none)
    | some curr =>
      if curr = s.tailId then some (pred, some curr)
      else
        let c := s.cell curr ℓ
        match gSkipLoop ℓ (fuel + 1) s (some curr) c.ptr c.mark with
        | none => none
        | some (currO', succO) =>
          match currO' with
          | none => some (pred, none)
          | some curr' =>
            if curr' = s.tailId then some (pred, some curr')
            else if (s.heap curr').key < k then gWalk k ℓ fuel s curr' succO
            else some (pred, some curr')

/-- `get`'s level sweep (also starting at `MAX_LEVEL - 1`). -/
def gLevels (k fuel : Nat) : Nat → SL → Nat → Option (Option Nat)
  | ℓ, s, pred =>
    match gWalk k ℓ fuel s pred ((s.cell pred ℓ).ptr) with
    | none => none
    | some (pred', currO') =>
      match ℓ with
      | 0 => some currO'
      | ℓ' + 1 => gLevels k fuel ℓ' s pred'

/-- `SkipList::get(uint64_t key)` (pure read): after the sweep, re-read the
final node's bottom-level mark and return its `data` pointer only if the
key matches and the mark is clear; otherwise the null pointer (`none`). -/
def getS (fuel : Nat) (s : SL) (k : Nat) : Option (Option Nat) :=
  match gLevels k fuel (MAXL - 1) s s.headId with
  | none => none
  | some currO =>
    let nm := match currO with | none => false | some c => (s.cell c 0).mark
    match currO with
    | none => some none
    | some c =>
      if (s.heap c).key = k ∧ nm = false then some ((s.heap c).data)
      else some none

/-- `SkipList::popMin`: read `head->next[0]`; empty if tail (or null); if
the candidate's bottom mark is set, help-unlink head past it and retry;
otherwise CAS `(succ, live) → (succ, deleted)` on the candidate — on
success help-unlink from head, read the payload, retire the node (third
component of the result) and return; on failure retry.  `popMin` performs
no epoch bracketing and never touches levels above 0. -/
def popMinLoop : Nat → SL → Option (Option Nat × SL × Option Nat)
  | 0, _ => none
  | fuel + 1, s =>
    match (s.cell s.headId 0).ptr with
    | none => some (none, s, none)
    | some curr =>
      if curr = s.tailId then some (none, s, none)
      else
        let c := s.cell curr 0
        if c.mark then
          let (_, s') := s.cas s.headId 0 (some curr) c.ptr false false
          popMinLoop fuel s'
        else
          let (ok, s') := s.cas curr 0 c.ptr c.ptr false true
          if ok then
            let (_, s'') := s'.cas s.headId 0 (some curr) c.ptr false false
            some ((s''.heap curr).data, s'', some curr)
          else popMinLoop fuel s'

/-- `SkipList::popMin`. -/
def popMinS (fuel : Nat) (s : SL) : Option (Option Nat × SL × Option Nat) :=
  popMinLoop fuel s

/-! ## Observation probes

Pure functions used to state facts about a skip-list state: pointer
iteration at one level, and the (key, bottom-mark) sequence along the
level-0 chain. -/

/-- Follow `next[ℓ]` pointers `j` times from node `x`. -/
def stepN (s : SL) (ℓ : Nat) : Nat → Nat → Option Nat
  | 0, x => some x
  | j + 1, x =>
    match (s.cell x ℓ).ptr with
    | none => none
    | some y => stepN s ℓ j y

/-- The `(key, bottom-level mark)` pairs along the level-0 chain from node
`x` up to and including the tail sentinel. -/
def chain0Pairs : Nat → SL → Nat → Option (List (Nat × Bool))
  | 0, _, _ => none
  | fuel + 1, s, x =>
    if x = s.tailId then some [((s.heap x).key, (s.cell x 0).mark)]
    else
      match (s.cell x 0).ptr with
      | none => none
      | some y =>
        (chain0Pairs fuel s y).map (((s.heap x).key, (s.cell x 0).mark) :: ·)

/-- Drain `n` `popMin` calls, collecting the returned payload pointers. -/
def drain : Nat → Nat → SL → Option (List (Option Nat))
  | 0, _, _ => some []
  | n + 1, fuel, s =>
    match popMinS fuel s with
    | none => none
    | some (r, s', _) => (drain n fuel s').map (r :: ·)

/-- A skip list holding the single node `2` (key 5, payload 9, height 0):
head links to it at level 0, it links to the tail.  Used to instantiate the
`popMin` theorems on a concrete non-empty state. -/
def oneNode : SL :=
  { heap := fun i =>
      if i = 0 then
        ⟨0, none, MAXL, fun ℓ => if ℓ = 0 then ⟨some 2, false⟩ else ⟨some 1, false⟩⟩
      else if i = 1 then ⟨UMAX, none, MAXL, fun _ => ⟨none, false⟩⟩
      else if i = 2 then ⟨5, some 9, 0, fun _ => ⟨some 1, false⟩⟩
      else ⟨0, none, 0, fun _ => ⟨none, false⟩⟩
    headId := 0
    tailId := 1
    fresh := 3
    epoch := 0 }

/-! ## Basic update lemmas for the skip-list heap -/

theorem cell_setCell_same (s : SL) (n ℓ : Nat) (c : SCell) :
    (s.setCell n ℓ c).cell n ℓ = c := by
  simp [SL.setCell, SL.cell, Function.update_apply]

theorem cell_setCell_ne (s : SL) {n ℓ n' ℓ' : Nat} (c : SCell)
    (h : n' ≠ n ∨ ℓ' ≠ ℓ) : (s.setCell n ℓ c).cell n' ℓ' = s.cell n' ℓ' := by
  rcases h with h | h
  · simp [SL.setCell, SL.cell, Function.update_apply, h]
  · by_cases hn : n' = n
    · subst hn
      simp [SL.setCell, SL.cell, Function.update_apply, h]
    · simp [SL.setCell, SL.cell, Function.update_apply, hn]

theorem key_setCell (s : SL) (n ℓ : Nat) (c : SCell) (m : Nat) :
    ((s.setCell n ℓ c).heap m).key = (s.heap m).key := by
  by_cases hm : m = n <;> simp [SL.setCell, Function.update_apply, hm]

theorem data_setCell (s : SL) (n ℓ : Nat) (c : SCell) (m : Nat) :
    ((s.setCell n ℓ c).heap m).data = (s.heap m).data := by
  by_cases hm : m = n <;> simp [SL.setCell, Function.update_apply, hm]

theorem top_setCell (s : SL) (n ℓ : Nat) (c : SCell) (m : Nat) :
    ((s.setCell n ℓ c).heap m).top = (s.heap m).top := by
  by_cases hm : m = n <;> simp [SL.setCell, Function.update_apply, hm]

theorem headId_setCell (s : SL) (n ℓ : Nat) (c : SCell) :
    (s.setCell n ℓ c).headId = s.headId := rfl

theorem tailId_setCell (s : SL) (n ℓ : Nat) (c : SCell) :
    (s.setCell n ℓ c).tailId = s.tailId := rfl

theorem fresh_setCell (s : SL) (n ℓ : Nat) (c : SCell) :
    (s.setCell n ℓ c).fresh = s.fresh := rfl

theorem epoch_setCell (s : SL) (n ℓ : Nat) (c : SCell) :
    (s.setCell n ℓ c).epoch = s.epoch := rfl

/-! ## The abstract view of a clean skip-list state

An `ANode` is the abstract content of one live node; a state is
*represented* by a key-sorted list of `(id, ANode)` pairs when every level-ℓ
chain from head is exactly the nodes of height ≥ ℓ, in order, all unmarked
(`RepS` below).  This is the shape every sequentially reachable state has
outside of `popMin` residue, which is handled separately by the bottom-level
invariant `WF0`. -/

structure ANode where
  key : Nat
  val : Nat
  top : Nat
deriving DecidableEq

/-- `NodeOK s p`: the heap node `p.1` carries the abstract content `p.2`. -/
def NodeOK (s : SL) (p : Nat × ANode) : Prop :=
  (s.heap p.1).key = p.2.key ∧ (s.heap p.1).data = some p.2.val ∧
    (s.heap p.1).top = p.2.top

/-- First id of a pair list, defaulting to `z`. -/
def firstId (ps : List (Nat × ANode)) (z : Nat) : Nat :=
  match ps with
  | [] => z
  | p :: _ => p.1

/-- Last id of a pair list, defaulting to `x`. -/
def lastId (ps : List (Nat × ANode)) (x : Nat) : Nat :=
  (ps.map Prod.fst).getLastD x

/-- `ChainSeg s ℓ x ps z`: starting at node `x`, the level-ℓ cells link
unmarked through exactly the ids of `ps` and then point at `z`. -/
def ChainSeg (s : SL) (ℓ : Nat) : Nat → List (Nat × ANode) → Nat → Prop
  | x, [], z => s.cell x ℓ = ⟨some z, false⟩
  | x, p :: rest, z => s.cell x ℓ = ⟨some p.1, false⟩ ∧ ChainSeg s ℓ p.1 rest z

/-- The sub-list of abstract nodes present at level ℓ. -/
def levF (ℓ : Nat) (A : List (Nat × ANode)) : List (Nat × ANode) :=
  A.filter (fun p => ℓ ≤ p.2.top)

/-- The prefix of `ps` whose keys are strictly below `k`. -/
def lows (k : Nat) (ps : List (Nat × ANode)) : List (Nat × ANode) :=
  ps.takeWhile (fun p => p.2.key < k)

/-- The suffix of `ps` from the first key ≥ `k` on. -/
def his (k : Nat) (ps : List (Nat × ANode)) : List (Nat × ANode) :=
  ps.dropWhile (fun p => p.2.key < k)

/-- The node at which a level walk for key `k` stops advancing (`preds`). -/
def canonPred (k x : Nat) (ps : List (Nat × ANode)) : Nat :=
  lastId (lows k ps) x

/-- The first node with key ≥ `k` on the walked level (`succs`). -/
def canonCurr (k z : Nat) (ps : List (Nat × ANode)) : Nat :=
  firstId (his k ps) z

/-- `RepS s A`: the state `s` is the clean (fully linked, unmarked)
skip list over the sorted abstract association list `A`. -/
structure RepS (s : SL) (A : List (Nat × ANode)) : Prop where
  hne : s.headId ≠ s.tailId
  hkey : (s.heap s.headId).key = 0
  htop : MAXL ≤ (s.heap s.headId).top
  tkey : (s.heap s.tailId).key = UMAX
  ttop : MAXL ≤ (s.heap s.tailId).top
  tcell : ∀ ℓ, s.cell s.tailId ℓ = ⟨none, false⟩
  nodes : ∀ p ∈ A, NodeOK s p
  nodup : (A.map Prod.fst).Nodup
  hmem : s.headId ∉ A.map Prod.fst
  tmem : s.tailId ∉ A.map Prod.fst
  idlt : ∀ p ∈ A, p.1 < s.fresh
  hlt : s.headId < s.fresh
  tlt : s.tailId < s.fresh
  keys : List.Chain' (· < ·) (0 :: A.map (fun p => p.2.key) ++ [UMAX])
  tops : ∀ p ∈ A, p.2.top ≤ MAXL
  chains : ∀ ℓ, ℓ ≤ MAXL → ChainSeg s ℓ s.headId (levF ℓ A) s.tailId

theorem RepS_mk : RepS mkSkipList [] := by
  refine ⟨?_, rfl, ?_, rfl, ?_, ?_, ?_, ?_, ?_, ?_, ?_, ?_, ?_, ?_, ?_, ?_⟩ <;>
    simp [mkSkipList, SL.cell, ChainSeg, levF, MAXL, UMAX, List.Chain']

theorem lastId_cons (p : Nat × ANode) (rest : List (Nat × ANode)) (x : Nat) :
    lastId (p :: rest) x = lastId rest p.1 := by
  simp only [lastId, List.map_cons, List.getLastD_cons]

theorem lastId_eq_or_mem (ps : List (Nat × ANode)) (x : Nat) :
    lastId ps x = x ∨ lastId ps x ∈ ps.map Prod.fst := by
  cases ps with
  | nil => exact Or.inl rfl
  | cons p rest =>
    right
    rw [lastId_cons]
    have := List.getLastD_mem_cons (rest.map Prod.fst) p.1
    simpa [lastId] using this

theorem ChainSeg_head_cell (s : SL) (ℓ : Nat) :
    ∀ (ps : List (Nat × ANode)) (x z : Nat), ChainSeg s ℓ x ps z →
      s.cell x ℓ = ⟨some (firstId ps z), false⟩
  | [], x, z, h => h
  | _ :: _, _, _, h => h.1

theorem ChainSeg_frame (s s' : SL) (ℓ : Nat) :
    ∀ (ps : List (Nat × ANode)) (x z : Nat), ChainSeg s ℓ x ps z →
      (∀ y, (y = x ∨ y ∈ ps.map Prod.fst) → s'.cell y ℓ = s.cell y ℓ) →
      ChainSeg s' ℓ x ps z
  | [], x, z, h, hy => by
    show s'.cell x ℓ = _
    rw [hy x (Or.inl rfl)]; exact h
  | p :: rest, x, z, h, hy => by
    refine ⟨?_, ?_⟩
    · rw [hy x (Or.inl rfl)]; exact h.1
    · exact ChainSeg_frame s s' ℓ rest p.1 z h.2 fun y hmem => by
        refine hy y ?_
        rcases hmem with h1 | h2
        · exact Or.inr (by simp [h1])
        · exact Or.inr (by simp [h2])

theorem ChainSeg_append (s : SL) (ℓ : Nat) :
    ∀ (ps qs : List (Nat × ANode)) (x z : Nat),
      ChainSeg s ℓ x (ps ++ qs) z ↔
        (ChainSeg s ℓ x ps (firstId qs z) ∧ ChainSeg s ℓ (lastId ps x) qs z)
  | [], qs, x, z => by
    constructor
    · intro h
      exact ⟨ChainSeg_head_cell s ℓ qs x z h, h⟩
    · intro h
      exact h.2
  | p :: rest, qs, x, z => by
    constructor
    · intro h
      have ih := (ChainSeg_append s ℓ rest qs p.1 z).mp h.2
      exact ⟨⟨h.1, ih.1⟩, by rw [lastId_cons]; exact ih.2⟩
    · intro h
      refine ⟨h.1.1, ?_⟩
      refine (ChainSeg_append s ℓ rest qs p.1 z).mpr ⟨h.1.2, ?_⟩
      rw [← lastId_cons p rest x]; exact h.2

theorem ChainSeg_relink (s s' : SL) (ℓ n : Nat) :
    ∀ (ps : List (Nat × ANode)) (x z : Nat), ChainSeg s ℓ x ps z →
      (x :: ps.map Prod.fst).Nodup →
      (∀ y, (y = x ∨ y ∈ ps.map Prod.fst) → y ≠ lastId ps x →
        s'.cell y ℓ = s.cell y ℓ) →
      s'.cell (lastId ps x) ℓ = ⟨some n, false⟩ →
      ChainSeg s' ℓ x ps n
  | [], x, z, _, _, _, hlast => hlast
  | p :: rest, x, z, h, hnd, hy, hlast => by
    have hxne : x ≠ lastId (p :: rest) x := by
      intro hx
      have hmem : lastId (p :: rest) x ∈ (p :: rest).map Prod.fst := by
        rw [lastId_cons]
        have := List.getLastD_mem_cons (rest.map Prod.fst) p.1
        simpa [lastId] using this
      rw [← hx] at hmem
      exact (List.nodup_cons.mp hnd).1 hmem
    refine ⟨?_, ?_⟩
    · rw [hy x (Or.inl rfl) hxne]; exact h.1
    · refine ChainSeg_relink s s' ℓ n rest p.1 z h.2 (List.nodup_cons.mp hnd).2 ?_ ?_
      · intro y hmem hne
        refine hy y ?_ ?_
        · rcases hmem with h1 | h2
          · exact Or.inr (by simp [h1])
          · exact Or.inr (by simp [h2])
        · rw [lastId_cons]; exact hne
      · rw [← lastId_cons p rest x]; exact hlast

theorem ChainSeg_anchor (s s' : SL) (ℓ : Nat)
    (ps : List (Nat × ANode)) (x x' z : Nat) (h : ChainSeg s ℓ x ps z)
    (hc : s'.cell x' ℓ = ⟨some (firstId ps z), false⟩)
    (hy : ∀ y ∈ ps.map Prod.fst, s'.cell y ℓ = s.cell y ℓ) :
    ChainSeg s' ℓ x' ps z := by
  cases ps with
  | nil => exact hc
  | cons p rest =>
    refine ⟨hc, ?_⟩
    exact ChainSeg_frame s s' ℓ rest p.1 z h.2 fun y hmem => by
      refine hy y ?_
      rcases hmem with h1 | h2
      · simp [h1]
      · simp [h2]

theorem ChainSeg_canonPred_cell (s : SL) (ℓ k : Nat) :
    ∀ (ps : List (Nat × ANode)) (x z : Nat), ChainSeg s ℓ x ps z →
      s.cell (canonPred k x ps) ℓ = ⟨some (canonCurr k z ps), false⟩
  | [], x, z, h => by simpa [canonPred, canonCurr, lows, his, lastId, firstId] using h
  | p :: rest, x, z, h => by
    by_cases hp : p.2.key < k
    · have ih := ChainSeg_canonPred_cell s ℓ k rest p.1 z h.2
      simpa [canonPred, canonCurr, lows, his, hp, List.takeWhile_cons,
        List.dropWhile_cons, lastId_cons] using ih
    · have hcell := ChainSeg_head_cell s ℓ (p :: rest) x z h
      simpa [canonPred, canonCurr, lows, his, hp, List.takeWhile_cons,
        List.dropWhile_cons, lastId, firstId] using hcell

theorem lows_append_his (k : Nat) (ps : List (Nat × ANode)) :
    lows k ps ++ his k ps = ps := by
  simp [lows, his]

theorem canonPred_mem (k x : Nat) (ps : List (Nat × ANode)) :
    canonPred k x ps = x ∨ canonPred k x ps ∈ (lows k ps).map Prod.fst :=
  lastId_eq_or_mem (lows k ps) x

theorem levelLoop_spec (s : SL) (k ℓ : Nat) (hk : k ≤ UMAX)
    (htt : ℓ ≤ (s.heap s.tailId).top)
    (htc : s.cell s.tailId ℓ = ⟨none, false⟩)
    (htk : (s.heap s.tailId).key = UMAX) :
    ∀ (ps : List (Nat × ANode)) (x fuel : Nat),
      ChainSeg s ℓ x ps s.tailId →
      (∀ p ∈ ps, NodeOK s p ∧ ℓ ≤ p.2.top) →
      ps.length + 1 ≤ fuel →
      levelLoop k ℓ fuel s x (firstId ps s.tailId) =
        some (Sum.inr (s, canonPred k x ps, canonCurr k s.tailId ps))
  | [], x, fuel, hch, _, hfuel => by
    obtain ⟨f, rfl⟩ : ∃ f, fuel = f + 1 := ⟨fuel - 1, by omega⟩
    have hnlt : ¬ ((s.heap s.tailId).key < k) := by rw [htk]; omega
    have hf0 : firstId ([] : List (Nat × ANode)) s.tailId = s.tailId := rfl
    rw [hf0]
    simp only [levelLoop, succOf, if_pos htt, htc, unlinkL, if_neg
      (by simp : ¬ (false = true)), hnlt, if_false]
    simp [canonPred, canonCurr, lows, his, lastId, firstId]
  | p :: rest, x, fuel, hch, hnodes, hfuel => by
    obtain ⟨f, rfl⟩ : ∃ f, fuel = f + 1 := ⟨fuel - 1, by omega⟩
    obtain ⟨⟨hpk, _, hpt⟩, hpl⟩ := hnodes p (by simp)
    have hcell := ChainSeg_head_cell s ℓ rest p.1 s.tailId hch.2
    have htop' : ℓ ≤ (s.heap p.1).top := by rw [hpt]; exact hpl
    have hf1 : firstId (p :: rest) s.tailId = p.1 := rfl
    rw [hf1]
    simp only [levelLoop, succOf, if_pos htop', hcell, unlinkL,
      if_neg (by simp : ¬ (false = true))]
    by_cases hp : p.2.key < k
    · rw [hpk, if_pos hp]
      have ih := levelLoop_spec s k ℓ hk htt htc htk rest p.1 f hch.2
        (fun q hq => hnodes q (by simp [hq])) (by simpa using hfuel)
      have hpred : canonPred k x (p :: rest) = canonPred k p.1 rest := by
        simp [canonPred, lows, List.takeWhile_cons, hp, lastId_cons]
      have hcurr : canonCurr k s.tailId (p :: rest) = canonCurr k s.tailId rest := by
        simp [canonCurr, his, List.dropWhile_cons, hp]
      rw [hpred, hcurr, ← ih]
    · rw [hpk, if_neg hp]
      have hpred : canonPred k x (p :: rest) = x := by
        simp [canonPred, lows, List.takeWhile_cons, hp, lastId]
      have hcurr : canonCurr k s.tailId (p :: rest) = p.1 := by
        simp [canonCurr, his, List.dropWhile_cons, hp, firstId]
      rw [hpred, hcurr]

theorem levF_length_le (ℓ : Nat) (A : List (Nat × ANode)) :
    (levF ℓ A).length ≤ A.length := List.length_filter_le _ A

theorem levF_mem {ℓ : Nat} {A : List (Nat × ANode)} {p : Nat × ANode}
    (hp : p ∈ levF ℓ A) : p ∈ A ∧ ℓ ≤ p.2.top := by
  unfold levF at hp
  exact ⟨List.mem_of_mem_filter hp, by simpa using List.of_mem_filter hp⟩

theorem levelsDown_spec (s : SL) (A : List (Nat × ANode)) (k : Nat)
    (hrep : RepS s A) (hk : k ≤ UMAX) (fuel : Nat)
    (hfuel : A.length + 1 ≤ fuel) :
    ∀ ℓ, ℓ ≤ MAXL → ∀ (preds succs : Nat → Nat),
      ∃ preds' succs',
        levelsDown k fuel ℓ s preds succs =
          some (Sum.inr (s, preds', succs', canonCurr k s.tailId (levF 0 A))) ∧
        (∀ j, j ≤ ℓ → preds' j = canonPred k s.headId (levF j A) ∧
          succs' j = canonCurr k s.tailId (levF j A)) ∧
        (∀ j, ℓ < j → preds' j = preds j ∧ succs' j = succs j) := by
  intro ℓ
  induction ℓ with
  | zero =>
    intro hℓ preds succs
    have hc := ChainSeg_head_cell s 0 (levF 0 A) s.headId s.tailId (hrep.chains 0 hℓ)
    have hwalk := levelLoop_spec s k 0 hk (le_trans hℓ hrep.ttop) (hrep.tcell 0)
      hrep.tkey (levF 0 A) s.headId fuel (hrep.chains 0 hℓ)
      (fun p hp => ⟨hrep.nodes p (levF_mem hp).1, (levF_mem hp).2⟩)
      (by have := levF_length_le 0 A; omega)
    have hproc : procLevel k fuel 0 s =
        some (Sum.inr (s, canonPred k s.headId (levF 0 A),
          canonCurr k s.tailId (levF 0 A))) := by
      unfold procLevel
      rw [show (s.cell s.headId 0).ptr = some (firstId (levF 0 A) s.tailId) from
        by rw [hc]]
      exact hwalk
    refine ⟨Function.update preds 0 (canonPred k s.headId (levF 0 A)),
      Function.update succs 0 (canonCurr k s.tailId (levF 0 A)), ?_, ?_, ?_⟩
    · simp only [levelsDown, hproc]
    · intro j hj
      have : j = 0 := Nat.le_zero.mp hj
      subst this
      simp [Function.update_apply]
    · intro j hj
      have : j ≠ 0 := by omega
      simp [Function.update_apply, this]
  | succ ℓ' ih =>
    intro hℓ preds succs
    have hc := ChainSeg_head_cell s (ℓ' + 1) (levF (ℓ' + 1) A) s.headId s.tailId
      (hrep.chains (ℓ' + 1) hℓ)
    have hwalk := levelLoop_spec s k (ℓ' + 1) hk (le_trans hℓ hrep.ttop)
      (hrep.tcell (ℓ' + 1)) hrep.tkey (levF (ℓ' + 1) A) s.headId fuel
      (hrep.chains (ℓ' + 1) hℓ)
      (fun p hp => ⟨hrep.nodes p (levF_mem hp).1, (levF_mem hp).2⟩)
      (by have := levF_length_le (ℓ' + 1) A; omega)
    obtain ⟨preds', succs', heq, hle, hgt⟩ := ih (by omega)
      (Function.update preds (ℓ' + 1) (canonPred k s.headId (levF (ℓ' + 1) A)))
      (Function.update succs (ℓ' + 1) (canonCurr k s.tailId (levF (ℓ' + 1) A)))
    have hproc : procLevel k fuel (ℓ' + 1) s =
        some (Sum.inr (s, canonPred k s.headId (levF (ℓ' + 1) A),
          canonCurr k s.tailId (levF (ℓ' + 1) A))) := by
      unfold procLevel
      rw [show (s.cell s.headId (ℓ' + 1)).ptr =
          some (firstId (levF (ℓ' + 1) A) s.tailId) from by rw [hc]]
      exact hwalk
    refine ⟨preds', succs', ?_, ?_, ?_⟩
    · simp only [levelsDown, hproc]
      exact heq
    · intro j hj
      rcases Nat.lt_or_ge j (ℓ' + 1) with h | h
      · exact hle j (by omega)
      · have hj1 : j = ℓ' + 1 := by omega
        have h2 := hgt j (by omega)
        rw [h2.1, h2.2, hj1]
        simp [Function.update_apply]
    · intro j hj
      have h2 := hgt j (by omega)
      have hne : j ≠ ℓ' + 1 := by omega
      rw [h2.1, h2.2]
      simp [Function.update_apply, hne]

theorem levF_zero (A : List (Nat × ANode)) : levF 0 A = A := by
  unfold levF
  simp

theorem lows_mem_lt {k : Nat} {ps : List (Nat × ANode)} {q : Nat × ANode}
    (hq : q ∈ lows k ps) : q.2.key < k := by
  simpa using List.mem_takeWhile_imp hq

theorem his_mem {k : Nat} {ps : List (Nat × ANode)} {q : Nat × ANode}
    (hq : q ∈ his k ps) : q ∈ ps :=
  (List.dropWhile_sublist _).mem hq

theorem lows_mem {k : Nat} {ps : List (Nat × ANode)} {q : Nat × ANode}
    (hq : q ∈ lows k ps) : q ∈ ps :=
  (List.takeWhile_sublist _).mem hq

theorem lows_eq_nil {k : Nat} : ∀ {ps : List (Nat × ANode)},
    (∀ q ∈ ps, ¬ (q.2.key < k)) → lows k ps = [] := by
  intro ps h
  cases ps with
  | nil => rfl
  | cons p rest =>
    have := h p (by simp)
    simp [lows, List.takeWhile_cons, this]

/-- Keys of the abstract list, in order. -/
def keysOf (A : List (Nat × ANode)) : List Nat :=
  A.map fun p => p.2.key

theorem RepS.keysPairwise {s : SL} {A : List (Nat × ANode)} (hrep : RepS s A) :
    (keysOf A).Pairwise (· < ·) := by
  have h := List.chain'_iff_pairwise.mp hrep.keys
  have h2 := (List.pairwise_cons.mp h).2
  exact (List.pairwise_append.mp h2).1

theorem RepS.keyBounds {s : SL} {A : List (Nat × ANode)} (hrep : RepS s A) :
    ∀ e ∈ keysOf A, 0 < e ∧ e < UMAX := by
  have h := List.chain'_iff_pairwise.mp hrep.keys
  obtain ⟨h1, h2⟩ := List.pairwise_cons.mp h
  obtain ⟨_, _, h3⟩ := List.pairwise_append.mp h2
  intro e he
  have he' : e ∈ A.map fun p => p.2.key := by simpa [keysOf] using he
  exact ⟨h1 e (List.mem_append_left _ he'), h3 e he' UMAX (by simp)⟩

theorem his_head_not_lt {k : Nat} : ∀ {ps : List (Nat × ANode)}
    {q : Nat × ANode} {t : List (Nat × ANode)},
    his k ps = q :: t → ¬ (q.2.key < k) := by
  intro ps
  induction ps with
  | nil => intro q t h; simp [his] at h
  | cons p rest ih =>
    intro q t h
    by_cases hp : p.2.key < k
    · exact ih (by simpa [his, List.dropWhile_cons, hp] using h)
    · have : p = q := by simp [his, List.dropWhile_cons, hp] at h; exact h.1
      rw [← this]; exact hp

theorem his_eq_cons_of_mem {k : Nat} : ∀ {ps : List (Nat × ANode)},
    (keysOf ps).Pairwise (· < ·) →
    ∀ {q : Nat × ANode}, q ∈ ps → q.2.key = k →
    ∃ t, his k ps = q :: t := by
  intro ps
  induction ps with
  | nil => intro _ q hq; simp at hq
  | cons p rest ih =>
    intro hpw q hq hqk
    have hpwc : (∀ b ∈ keysOf rest, p.2.key < b) ∧
        (keysOf rest).Pairwise (· < ·) := by
      have hk' : keysOf (p :: rest) = p.2.key :: keysOf rest := rfl
      rw [hk'] at hpw
      exact List.pairwise_cons.mp hpw
    rcases List.mem_cons.mp hq with hq | hq
    · subst hq
      have hp : ¬ (q.2.key < k) := by omega
      exact ⟨rest, by simp [his, List.dropWhile_cons, hp]⟩
    · have hlt : p.2.key < q.2.key :=
        hpwc.1 q.2.key (List.mem_map_of_mem (fun p => p.2.key) hq)
      have hp : p.2.key < k := by omega
      obtain ⟨t, ht⟩ := ih hpwc.2 hq hqk
      refine ⟨t, ?_⟩
      rw [show his k (p :: rest) = his k rest from
        by simp [his, List.dropWhile_cons, hp]]
      exact ht

theorem canonCurr_eq_of_mem {k : Nat} {ps : List (Nat × ANode)} {z : Nat}
    (hpw : (keysOf ps).Pairwise (· < ·))
    {q : Nat × ANode} (hq : q ∈ ps) (hqk : q.2.key = k) :
    canonCurr k z ps = q.1 := by
  obtain ⟨t, ht⟩ := his_eq_cons_of_mem hpw hq hqk
  simp [canonCurr, ht, firstId]

theorem findS_spec (s : SL) (A : List (Nat × ANode)) (k : Nat)
    (hrep : RepS s A) (hk : k ≤ UMAX) (fuel : Nat)
    (hfuel : A.length + 2 ≤ fuel) :
    ∃ preds succs,
      findS k fuel s =
        some (s, (s.heap (canonCurr k s.tailId A)).key == k, preds, succs) ∧
      ∀ j, j ≤ MAXL →
        preds j = canonPred k s.headId (levF j A) ∧
        succs j = canonCurr k s.tailId (levF j A) := by
  obtain ⟨f, rfl⟩ : ∃ f, fuel = f + 1 := ⟨fuel - 1, by omega⟩
  obtain ⟨preds', succs', heq, hle, _⟩ :=
    levelsDown_spec s A k hrep hk (f + 1) (by omega) MAXL (le_refl _)
      (fun _ => 0) (fun _ => 0)
  refine ⟨preds', succs', ?_, hle⟩
  simp only [findS, heq]
  rw [levF_zero]

theorem levF_cons_pos {ℓ : Nat} {a : Nat × ANode} (h : ℓ ≤ a.2.top)
    (A : List (Nat × ANode)) : levF ℓ (a :: A) = a :: levF ℓ A := by
  simp [levF, List.filter_cons, h]

theorem levF_cons_neg {ℓ : Nat} {a : Nat × ANode} (h : ¬ ℓ ≤ a.2.top)
    (A : List (Nat × ANode)) : levF ℓ (a :: A) = levF ℓ A := by
  simp [levF, List.filter_cons, h]

theorem lows_cons_pos {k : Nat} {a : Nat × ANode} (h : a.2.key < k)
    (A : List (Nat × ANode)) : lows k (a :: A) = a :: lows k A := by
  simp [lows, List.takeWhile_cons, h]

theorem lows_cons_neg {k : Nat} {a : Nat × ANode} (h : ¬ a.2.key < k)
    (A : List (Nat × ANode)) : lows k (a :: A) = [] := by
  simp [lows, List.takeWhile_cons, h]

theorem his_cons_pos {k : Nat} {a : Nat × ANode} (h : a.2.key < k)
    (A : List (Nat × ANode)) : his k (a :: A) = his k A := by
  simp [his, List.dropWhile_cons, h]

theorem his_cons_neg {k : Nat} {a : Nat × ANode} (h : ¬ a.2.key < k)
    (A : List (Nat × ANode)) : his k (a :: A) = a :: A := by
  simp [his, List.dropWhile_cons, h]

theorem his_eq_self {k : Nat} {ps : List (Nat × ANode)}
    (h : ∀ q ∈ ps, ¬ (q.2.key < k)) : his k ps = ps := by
  cases ps with
  | nil => rfl
  | cons p rest => exact his_cons_neg (h p (by simp)) rest

theorem pairwise_cons_keys {a : Nat × ANode} {rest : List (Nat × ANode)}
    (hpw : (keysOf (a :: rest)).Pairwise (· < ·)) :
    (∀ b ∈ rest, a.2.key < b.2.key) ∧ (keysOf rest).Pairwise (· < ·) := by
  have hk' : keysOf (a :: rest) = a.2.key :: keysOf rest := rfl
  rw [hk'] at hpw
  obtain ⟨h1, h2⟩ := List.pairwise_cons.mp hpw
  exact ⟨fun b hb => h1 b.2.key (List.mem_map_of_mem (fun p => p.2.key) hb), h2⟩

theorem lows_levF (k ℓ : Nat) : ∀ (A : List (Nat × ANode)),
    (keysOf A).Pairwise (· < ·) →
    lows k (levF ℓ A) = levF ℓ (lows k A) := by
  intro A
  induction A with
  | nil => intro _; rfl
  | cons a rest ih =>
    intro hpw
    obtain ⟨h1, h2⟩ := pairwise_cons_keys hpw
    by_cases ha : a.2.key < k
    · by_cases ht : ℓ ≤ a.2.top
      · rw [levF_cons_pos ht, lows_cons_pos ha, lows_cons_pos ha,
          levF_cons_pos ht, ih h2]
      · rw [levF_cons_neg ht, lows_cons_pos ha, levF_cons_neg ht, ih h2]
    · rw [lows_cons_neg ha]
      have hnil : lows k (levF ℓ (a :: rest)) = [] := by
        refine lows_eq_nil ?_
        intro q hq
        rcases levF_mem hq with ⟨hq1, _⟩
        rcases List.mem_cons.mp hq1 with h | h
        · rw [h]; exact ha
        · have := h1 q h; omega
      rw [hnil]
      rfl

theorem his_levF (k ℓ : Nat) : ∀ (A : List (Nat × ANode)),
    (keysOf A).Pairwise (· < ·) →
    his k (levF ℓ A) = levF ℓ (his k A) := by
  intro A
  induction A with
  | nil => intro _; rfl
  | cons a rest ih =>
    intro hpw
    obtain ⟨h1, h2⟩ := pairwise_cons_keys hpw
    by_cases ha : a.2.key < k
    · by_cases ht : ℓ ≤ a.2.top
      · rw [levF_cons_pos ht, his_cons_pos ha, his_cons_pos ha, ih h2]
      · rw [levF_cons_neg ht, his_cons_pos ha, ih h2]
    · rw [his_cons_neg ha]
      by_cases ht : ℓ ≤ a.2.top
      · rw [levF_cons_pos ht, his_cons_neg ha]
      · rw [levF_cons_neg ht]
        refine his_eq_self ?_
        intro q hq
        rcases levF_mem hq with ⟨hq1, _⟩
        have := h1 q hq1
        omega

/-! ## Evaluation of the write phases of `add` and `remove`

In a sequential execution every CAS in `add` Step 2/3 and `remove`
Step 1/2/3 finds the pair it expects, so each phase reduces to a sequence
of cell writes; the functions below are those write sequences, and the
`_eval` lemmas discharge the CAS checks. -/

/-- The writes of `add` Step 3 (and of its Step 2 at one level):
`preds[j].next[j] := (newNode, live)` for `j ∈ [ℓ, ℓ + cnt)`. -/
def linkUp (n : Nat) (preds : Nat → Nat) : Nat → Nat → SL → SL
  | 0, _, s => s
  | cnt + 1, ℓ, s => linkUp n preds cnt (ℓ + 1) (s.setCell (preds ℓ) ℓ ⟨some n, false⟩)

/-- The writes of `remove` Step 1: mark the victim's cells `L down to 1`. -/
def markCells (n : Nat) : Nat → SL → SL
  | 0, s => s
  | ℓ + 1, s => markCells n ℓ (s.setCell n (ℓ + 1) ⟨(s.cell n (ℓ + 1)).ptr, true⟩)

/-- The writes of `remove` Step 3: `preds[j].next[j] := (victim.next[j], live)`
for `j ∈ [ℓ, ℓ + cnt)`. -/
def unlinkCells (n : Nat) (preds : Nat → Nat) : Nat → Nat → SL → SL
  | 0, _, s => s
  | cnt + 1, ℓ, s =>
    unlinkCells n preds cnt (ℓ + 1) (s.setCell (preds ℓ) ℓ ⟨(s.cell n ℓ).ptr, false⟩)

theorem initNext_cell (s : SL) (n : Nat) (succs : Nat → Nat) :
    ∀ (L x j : Nat),
      (initNext s n succs L).cell x j =
        if x = n ∧ j ≤ L then ⟨some (succs j), false⟩ else s.cell x j := by
  intro L
  induction L with
  | zero =>
    intro x j
    by_cases hx : x = n
    · by_cases hj : j = 0
      · subst hx hj
        simp [initNext, cell_setCell_same]
      · rw [show initNext s n succs 0 = s.setCell n 0 ⟨some (succs 0), false⟩ from rfl,
          cell_setCell_ne s _ (Or.inr hj)]
        simp [hx, hj, Nat.le_zero]
    · rw [show initNext s n succs 0 = s.setCell n 0 ⟨some (succs 0), false⟩ from rfl,
        cell_setCell_ne s _ (Or.inl hx)]
      simp [hx]
  | succ L ih =>
    intro x j
    show ((initNext s n succs L).setCell n (L + 1) _).cell x j = _
    by_cases hx : x = n
    · by_cases hj : j = L + 1
      · subst hx hj
        rw [cell_setCell_same]
        simp
      · rw [cell_setCell_ne _ _ (Or.inr hj), ih]
        by_cases hjL : j ≤ L
        · simp [hx, hjL, (show j ≤ L + 1 by omega)]
        · simp [hx, hjL, (show ¬ (j ≤ L + 1) by omega)]
    · rw [cell_setCell_ne _ _ (Or.inl hx), ih]
      simp [hx]

theorem linkUp_cell (n : Nat) (preds : Nat → Nat) :
    ∀ (cnt ℓ : Nat) (s : SL) (x j : Nat),
      (linkUp n preds cnt ℓ s).cell x j =
        if ℓ ≤ j ∧ j < ℓ + cnt ∧ x = preds j then ⟨some n, false⟩
        else s.cell x j := by
  intro cnt
  induction cnt with
  | zero =>
    intro ℓ s x j
    have h : ¬ (ℓ ≤ j ∧ j < ℓ + 0 ∧ x = preds j) := by
      rintro ⟨h1, h2, _⟩
      omega
    rw [if_neg h]
    rfl
  | succ cnt ih =>
    intro ℓ s x j
    show (linkUp n preds cnt (ℓ + 1) _).cell x j = _
    rw [ih]
    by_cases h1 : ℓ + 1 ≤ j ∧ j < ℓ + 1 + cnt ∧ x = preds j
    · have h2 : ℓ ≤ j ∧ j < ℓ + (cnt + 1) ∧ x = preds j :=
        ⟨by omega, by omega, h1.2.2⟩
      rw [if_pos h1, if_pos h2]
    · rw [if_neg h1]
      by_cases h2 : j = ℓ ∧ x = preds ℓ
      · obtain ⟨hj, hx⟩ := h2
        rw [hj, hx, cell_setCell_same,
          if_pos (⟨le_refl _, by omega, rfl⟩ :
            ℓ ≤ ℓ ∧ ℓ < ℓ + (cnt + 1) ∧ preds ℓ = preds ℓ)]
      · rw [cell_setCell_ne _ _ (by tauto)]
        have h3 : ¬ (ℓ ≤ j ∧ j < ℓ + (cnt + 1) ∧ x = preds j) := by
          rintro ⟨ha, hb, hc⟩
          rcases Nat.eq_or_lt_of_le ha with h | h
          · refine h2 ⟨h.symm, ?_⟩
            rw [← h] at hc
            exact hc
          · exact h1 ⟨by omega, by omega, hc⟩
        rw [if_neg h3]

theorem markCells_cell (n : Nat) :
    ∀ (L : Nat) (s : SL) (x j : Nat),
      (markCells n L s).cell x j =
        if x = n ∧ 1 ≤ j ∧ j ≤ L then ⟨(s.cell x j).ptr, true⟩
        else s.cell x j := by
  intro L
  induction L with
  | zero =>
    intro s x j
    have h : ¬ (x = n ∧ 1 ≤ j ∧ j ≤ 0) := by
      rintro ⟨_, h1, h2⟩
      omega
    rw [if_neg h]
    rfl
  | succ L ih =>
    intro s x j
    show (markCells n L _).cell x j = _
    rw [ih]
    by_cases h1 : x = n ∧ 1 ≤ j ∧ j ≤ L
    · have hjne : j ≠ L + 1 := by omega
      rw [if_pos h1, cell_setCell_ne _ _ (Or.inr hjne),
        if_pos (⟨h1.1, h1.2.1, by omega⟩ : x = n ∧ 1 ≤ j ∧ j ≤ L + 1)]
    · rw [if_neg h1]
      by_cases h2 : x = n ∧ j = L + 1
      · obtain ⟨hx, hj⟩ := h2
        rw [hx, hj, cell_setCell_same,
          if_pos (⟨rfl, by omega, le_refl _⟩ :
            (n : Nat) = n ∧ 1 ≤ L + 1 ∧ L + 1 ≤ L + 1)]
      · have h3 : ¬ (x = n ∧ 1 ≤ j ∧ j ≤ L + 1) := by
          rintro ⟨ha, hb, hc⟩
          rcases Nat.eq_or_lt_of_le hc with h | h
          · exact h2 ⟨ha, h⟩
          · exact h1 ⟨ha, hb, by omega⟩
        rw [if_neg h3, cell_setCell_ne _ _ (by tauto)]

theorem unlinkCells_cell (n : Nat) (preds : Nat → Nat) :
    ∀ (cnt ℓ : Nat) (s : SL) (x j : Nat),
      (unlinkCells n preds cnt ℓ s).cell x j =
        if ℓ ≤ j ∧ j < ℓ + cnt ∧ x = preds j then ⟨(s.cell n j).ptr, false⟩
        else s.cell x j := by
  intro cnt
  induction cnt with
  | zero =>
    intro ℓ s x j
    have h : ¬ (ℓ ≤ j ∧ j < ℓ + 0 ∧ x = preds j) := by
      rintro ⟨h1, h2, _⟩
      omega
    rw [if_neg h]
    rfl
  | succ cnt ih =>
    intro ℓ s x j
    show (unlinkCells n preds cnt (ℓ + 1) _).cell x j = _
    rw [ih]
    by_cases h1 : ℓ + 1 ≤ j ∧ j < ℓ + 1 + cnt ∧ x = preds j
    · have h2 : ℓ ≤ j ∧ j < ℓ + (cnt + 1) ∧ x = preds j :=
        ⟨by omega, by omega, h1.2.2⟩
      rw [if_pos h1, if_pos h2, cell_setCell_ne _ _ (Or.inr (by omega))]
    · rw [if_neg h1]
      by_cases h2 : j = ℓ ∧ x = preds ℓ
      · obtain ⟨hj, hx⟩ := h2
        rw [hj, hx, cell_setCell_same,
          if_pos (⟨le_refl _, by omega, rfl⟩ :
            ℓ ≤ ℓ ∧ ℓ < ℓ + (cnt + 1) ∧ preds ℓ = preds ℓ)]
      · rw [cell_setCell_ne _ _ (by tauto)]
        have h3 : ¬ (ℓ ≤ j ∧ j < ℓ + (cnt + 1) ∧ x = preds j) := by
          rintro ⟨ha, hb, hc⟩
          rcases Nat.eq_or_lt_of_le ha with h | h
          · refine h2 ⟨h.symm, ?_⟩
            rw [← h] at hc
            exact hc
          · exact h1 ⟨by omega, by omega, hc⟩
        rw [if_neg h3]

/-- Skeleton preservation: cell writes never change node identity fields,
the sentinels, the allocation cursor or the epoch counter. -/
def SameSkel (s s' : SL) : Prop :=
  s'.headId = s.headId ∧ s'.tailId = s.tailId ∧ s'.fresh = s.fresh ∧
    s'.epoch = s.epoch ∧
    ∀ x, (s'.heap x).key = (s.heap x).key ∧ (s'.heap x).data = (s.heap x).data ∧
      (s'.heap x).top = (s.heap x).top

theorem sameSkel_refl (s : SL) : SameSkel s s :=
  ⟨rfl, rfl, rfl, rfl, fun _ => ⟨rfl, rfl, rfl⟩⟩

theorem sameSkel_trans {s1 s2 s3 : SL} (h12 : SameSkel s1 s2)
    (h23 : SameSkel s2 s3) : SameSkel s1 s3 := by
  obtain ⟨a1, b1, c1, d1, e1⟩ := h12
  obtain ⟨a2, b2, c2, d2, e2⟩ := h23
  exact ⟨a2.trans a1, b2.trans b1, c2.trans c1, d2.trans d1, fun x =>
    ⟨(e2 x).1.trans (e1 x).1, (e2 x).2.1.trans (e1 x).2.1,
      (e2 x).2.2.trans (e1 x).2.2⟩⟩

theorem sameSkel_setCell (s : SL) (n ℓ : Nat) (c : SCell) :
    SameSkel s (s.setCell n ℓ c) :=
  ⟨rfl, rfl, rfl, rfl, fun x =>
    ⟨key_setCell s n ℓ c x, data_setCell s n ℓ c x, top_setCell s n ℓ c x⟩⟩

theorem sameSkel_initNext (s : SL) (n : Nat) (succs : Nat → Nat) :
    ∀ L, SameSkel s (initNext s n succs L)
  | 0 => sameSkel_setCell s n 0 _
  | L + 1 =>
    sameSkel_trans (sameSkel_initNext s n succs L)
      (sameSkel_setCell (initNext s n succs L) n (L + 1) _)

theorem sameSkel_linkUp (n : Nat) (preds : Nat → Nat) :
    ∀ (cnt ℓ : Nat) (s : SL), SameSkel s (linkUp n preds cnt ℓ s)
  | 0, _, s => sameSkel_refl s
  | cnt + 1, ℓ, s =>
    sameSkel_trans (sameSkel_setCell s (preds ℓ) ℓ _)
      (sameSkel_linkUp n preds cnt (ℓ + 1) _)

theorem sameSkel_markCells (n : Nat) :
    ∀ (L : Nat) (s : SL), SameSkel s (markCells n L s)
  | 0, s => sameSkel_refl s
  | L + 1, s =>
    sameSkel_trans (sameSkel_setCell s n (L + 1) _)
      (sameSkel_markCells n L _)

theorem sameSkel_unlinkCells (n : Nat) (preds : Nat → Nat) :
    ∀ (cnt ℓ : Nat) (s : SL), SameSkel s (unlinkCells n preds cnt ℓ s)
  | 0, _, s => sameSkel_refl s
  | cnt + 1, ℓ, s =>
    sameSkel_trans (sameSkel_setCell s (preds ℓ) ℓ _)
      (sameSkel_unlinkCells n preds cnt (ℓ + 1) _)

theorem cas_ok {s : SL} {n ℓ : Nat} {expP newP : Option Nat} {expM newM : Bool}
    (h : s.cell n ℓ = ⟨expP, expM⟩) :
    s.cas n ℓ expP newP expM newM = (true, s.setCell n ℓ ⟨newP, newM⟩) := by
  simp [SL.cas, h]

theorem attemptMark_ok {s : SL} {n ℓ : Nat} {p : Option Nat}
    (h : s.cell n ℓ = ⟨p, false⟩) :
    s.attemptMark n ℓ p true = (true, s.setCell n ℓ ⟨p, true⟩) := by
  simp [SL.attemptMark, h]

theorem cell_eta_false {c : SCell} (h : c.mark = false) : c = ⟨c.ptr, false⟩ := by
  cases c
  simp_all

theorem addLevels_eval (k n : Nat) (preds succs : Nat → Nat) :
    ∀ (cnt ℓ fuel : Nat) (s : SL), 1 ≤ fuel →
      (∀ j, ℓ ≤ j → j < ℓ + cnt → s.cell (preds j) j = ⟨some (succs j), false⟩) →
      addLevels k n cnt ℓ fuel s preds succs = some (linkUp n preds cnt ℓ s) := by
  intro cnt
  induction cnt with
  | zero => intro ℓ fuel s _ _; rfl
  | succ cnt ih =>
    intro ℓ fuel s hf hcells
    obtain ⟨f, rfl⟩ : ∃ f, fuel = f + 1 := ⟨fuel - 1, by omega⟩
    have hc : s.cell (preds ℓ) ℓ = ⟨some (succs ℓ), false⟩ :=
      hcells ℓ (le_refl _) (by omega)
    have hal : addLevel k n ℓ (f + 1) s preds succs =
        some (s.setCell (preds ℓ) ℓ ⟨some n, false⟩, preds, succs) := by
      simp only [addLevel, cas_ok hc]
      simp
    have hstep : addLevels k n (cnt + 1) ℓ (f + 1) s preds succs =
        addLevels k n cnt (ℓ + 1) (f + 1)
          (s.setCell (preds ℓ) ℓ ⟨some n, false⟩) preds succs := by
      show (match addLevel k n ℓ (f + 1) s preds succs with
        | none => none
        | some (s', p', q') => addLevels k n cnt (ℓ + 1) (f + 1) s' p' q') = _
      rw [hal]
    have hside : ∀ j, ℓ + 1 ≤ j → j < ℓ + 1 + cnt →
        (s.setCell (preds ℓ) ℓ ⟨some n, false⟩).cell (preds j) j =
          ⟨some (succs j), false⟩ := by
      intro j hj1 hj2
      rw [cell_setCell_ne _ _ (Or.inr (by omega))]
      exact hcells j (by omega) (by omega)
    rw [hstep, ih (ℓ + 1) (f + 1) _ (by omega) hside]
    rfl

theorem markHigh_eval (n : Nat) :
    ∀ (L fuel : Nat) (s : SL), 1 ≤ fuel →
      (∀ ℓ, 1 ≤ ℓ → ℓ ≤ L → (s.cell n ℓ).mark = false) →
      markHigh n L fuel s = some (markCells n L s) := by
  intro L
  induction L with
  | zero => intro fuel s _ _; rfl
  | succ L ih =>
    intro fuel s hf hmk
    obtain ⟨f, rfl⟩ : ∃ f, fuel = f + 1 := ⟨fuel - 1, by omega⟩
    have hm : (s.cell n (L + 1)).mark = false := hmk (L + 1) (by omega) (le_refl _)
    have hmo : markOne n (L + 1) (f + 1) s =
        some (s.setCell n (L + 1) ⟨(s.cell n (L + 1)).ptr, true⟩) := by
      simp only [markOne, hm, attemptMark_ok (cell_eta_false hm)]
      simp
    have hstep : markHigh n (L + 1) (f + 1) s =
        markHigh n L (f + 1) (s.setCell n (L + 1) ⟨(s.cell n (L + 1)).ptr, true⟩) := by
      show (match markOne n (L + 1) (f + 1) s with
        | none => none
        | some s' => markHigh n L (f + 1) s') = _
      rw [hmo]
    have hside : ∀ ℓ, 1 ≤ ℓ → ℓ ≤ L →
        ((s.setCell n (L + 1) ⟨(s.cell n (L + 1)).ptr, true⟩).cell n ℓ).mark =
          false := by
      intro ℓ h1 h2
      rw [cell_setCell_ne _ _ (Or.inr (by omega))]
      exact hmk ℓ h1 (by omega)
    rw [hstep, ih (f + 1) _ (by omega) hside]
    rfl

theorem markBottom_eval (n : Nat) (fuel : Nat) (s : SL) (hf : 1 ≤ fuel)
    (hm : (s.cell n 0).mark = false) :
    markBottom n fuel s =
      some (Sum.inr (s.setCell n 0 ⟨(s.cell n 0).ptr, true⟩)) := by
  obtain ⟨f, rfl⟩ : ∃ f, fuel = f + 1 := ⟨fuel - 1, by omega⟩
  have hc : s.cell n 0 = ⟨(s.cell n 0).ptr, false⟩ := cell_eta_false hm
  simp only [markBottom, hm, cas_ok hc]
  simp

theorem unlinkAll_eval (n : Nat) (preds : Nat → Nat) :
    ∀ (cnt ℓ : Nat) (s : SL),
      (∀ j, ℓ ≤ j → j < ℓ + cnt →
        s.cell (preds j) j = ⟨some n, false⟩ ∧ preds j ≠ n) →
      unlinkAll n preds cnt ℓ s = Sum.inr (unlinkCells n preds cnt ℓ s) := by
  intro cnt
  induction cnt with
  | zero => intro ℓ s _; rfl
  | succ cnt ih =>
    intro ℓ s hcells
    have hc : s.cell (preds ℓ) ℓ = ⟨some n, false⟩ :=
      (hcells ℓ (le_refl _) (by omega)).1
    have hstep : unlinkAll n preds (cnt + 1) ℓ s =
        unlinkAll n preds cnt (ℓ + 1)
          (s.setCell (preds ℓ) ℓ ⟨(s.cell n ℓ).ptr, false⟩) := by
      show (let succ := (s.cell n ℓ).ptr
        let (ok, s') := s.cas (preds ℓ) ℓ (some n) succ false false
        if ok then unlinkAll n preds cnt (ℓ + 1) s' else Sum.inl s') = _
      simp only [cas_ok hc]
      simp
    have hside : ∀ j, ℓ + 1 ≤ j → j < ℓ + 1 + cnt →
        (s.setCell (preds ℓ) ℓ ⟨(s.cell n ℓ).ptr, false⟩).cell (preds j) j =
          ⟨some n, false⟩ ∧ preds j ≠ n := by
      intro j hj1 hj2
      rw [cell_setCell_ne _ _ (Or.inr (by omega))]
      exact hcells j (by omega) (by omega)
    rw [hstep, ih (ℓ + 1) _ hside]
    rfl

theorem RepS_epoch {s : SL} {A : List (Nat × ANode)} (hrep : RepS s A)
    (e : Int) : RepS { s with epoch := e } A := by
  refine ⟨hrep.hne, hrep.hkey, hrep.htop, hrep.tkey, hrep.ttop, hrep.tcell,
    hrep.nodes, hrep.nodup, hrep.hmem, hrep.tmem, hrep.idlt, hrep.hlt, hrep.tlt,
    hrep.keys, hrep.tops, ?_⟩
  intro ℓ hℓ
  exact ChainSeg_frame s _ ℓ _ _ _ (hrep.chains ℓ hℓ) (fun y _ => rfl)

theorem lows_sublist (k : Nat) (A : List (Nat × ANode)) :
    (lows k A).Sublist A := List.takeWhile_sublist _

theorem his_sublist (k : Nat) (A : List (Nat × ANode)) :
    (his k A).Sublist A := List.dropWhile_sublist _

theorem levF_sublist (ℓ : Nat) (A : List (Nat × ANode)) :
    (levF ℓ A).Sublist A := List.filter_sublist A

theorem chain_insert_aux {k : Nat} : ∀ (A : List (Nat × ANode)) (b : Nat),
    List.Chain' (· < ·) (b :: keysOf A ++ [UMAX]) → b < k → k < UMAX →
    k ∉ keysOf A → ∀ (p : Nat × ANode), p.2.key = k →
    List.Chain' (· < ·) (b :: keysOf (lows k A ++ p :: his k A) ++ [UMAX]) := by
  intro A
  induction A with
  | nil =>
    intro b hch hbk hku _ p hpk
    simp only [lows, his, List.takeWhile_nil, List.dropWhile_nil, List.nil_append]
    have : keysOf [p] = [k] := by simp [keysOf, hpk]
    rw [this]
    exact List.chain'_cons.mpr ⟨hbk, List.chain'_cons.mpr ⟨hku, List.chain'_singleton _⟩⟩
  | cons a rest ih =>
    intro b hch hbk hku hnm p hpk
    have hkeys : keysOf (a :: rest) = a.2.key :: keysOf rest := rfl
    rw [hkeys] at hch
    have hch' := List.chain'_cons.mp (by simpa using hch)
    by_cases ha : a.2.key < k
    · rw [lows_cons_pos ha, his_cons_pos ha]
      have hk2 : keysOf ((a :: lows k rest) ++ p :: his k rest) =
          a.2.key :: keysOf (lows k rest ++ p :: his k rest) := rfl
      rw [hk2]
      refine List.chain'_cons.mpr ⟨hch'.1, ?_⟩
      exact ih a.2.key hch'.2 ha hku
        (fun hmem => hnm (by rw [hkeys]; exact List.mem_cons_of_mem _ hmem)) p hpk
    · have hne : a.2.key ≠ k := by
        intro h
        exact hnm (by simp [hkeys, h])
      have hka : k < a.2.key := by omega
      rw [lows_cons_neg ha, his_cons_neg ha]
      have : keysOf (p :: a :: rest) = k :: a.2.key :: keysOf rest := by
        simp [keysOf, hpk]
      rw [List.nil_append, this]
      refine List.chain'_cons.mpr ⟨hbk, ?_⟩
      refine List.chain'_cons.mpr ⟨hka, ?_⟩
      simpa using hch'.2

theorem perm_ids_insert (k n : Nat) (a : ANode) (A : List (Nat × ANode)) :
    ((lows k A ++ (n, a) :: his k A).map Prod.fst).Perm (n :: A.map Prod.fst) := by
  rw [List.map_append, List.map_cons]
  refine (List.perm_middle).trans ?_
  rw [← List.map_append, lows_append_his]

theorem RepS_after_insert (s s' : SL) (A : List (Nat × ANode))
    (k v lvl : Nat) (predsF succsF : Nat → Nat)
    (hrep : RepS s A)
    (hk0 : 0 < k) (hku : k < UMAX) (hnm : k ∉ keysOf A) (hlvl : lvl ≤ MAXL)
    (hhead : s'.headId = s.headId) (htail : s'.tailId = s.tailId)
    (hfr : s'.fresh = s.fresh + 1)
    (hheapn : (s'.heap s.fresh).key = k ∧ (s'.heap s.fresh).data = some v ∧
      (s'.heap s.fresh).top = lvl)
    (hheapo : ∀ x, x ≠ s.fresh → (s'.heap x).key = (s.heap x).key ∧
      (s'.heap x).data = (s.heap x).data ∧ (s'.heap x).top = (s.heap x).top)
    (hcells : ∀ x j, x ≠ s.fresh → ¬ (j ≤ lvl ∧ x = predsF j) →
      s'.cell x j = s.cell x j)
    (hcellp : ∀ j, j ≤ lvl → s'.cell (predsF j) j = ⟨some s.fresh, false⟩)
    (hcelln : ∀ j, j ≤ lvl → s'.cell s.fresh j = ⟨some (succsF j), false⟩)
    (hpred : ∀ j, j ≤ MAXL → predsF j = canonPred k s.headId (levF j A))
    (hsucc : ∀ j, j ≤ MAXL → succsF j = canonCurr k s.tailId (levF j A)) :
    RepS s' (lows k A ++ (s.fresh, ⟨k, v, lvl⟩) :: his k A) := by
  have hpw := hrep.keysPairwise
  have hnid : ∀ p ∈ A, p.1 ≠ s.fresh := fun p hp => Nat.ne_of_lt (hrep.idlt p hp)
  have hhne : s.headId ≠ s.fresh := Nat.ne_of_lt hrep.hlt
  have htne : s.tailId ≠ s.fresh := Nat.ne_of_lt hrep.tlt
  have hperm := perm_ids_insert k s.fresh ⟨k, v, lvl⟩ A
  have hpredmem : ∀ j, j ≤ MAXL →
      predsF j = s.headId ∨ ∃ e, (predsF j, e) ∈ A := by
    intro j hj
    rw [hpred j hj]
    rcases canonPred_mem k s.headId (levF j A) with h | h
    · exact Or.inl h
    · right
      rw [List.mem_map] at h
      obtain ⟨q, hq1, hq2⟩ := h
      have hqA : q ∈ A := ((lows_sublist _ _).trans (levF_sublist _ _)).mem hq1
      refine ⟨q.2, ?_⟩
      rw [← hq2]
      simpa using hqA
  refine ⟨?_, ?_, ?_, ?_, ?_, ?_, ?_, ?_, ?_, ?_, ?_, ?_, ?_, ?_, ?_, ?_⟩
  · rw [hhead, htail]; exact hrep.hne
  · rw [hhead, (hheapo s.headId hhne).1]; exact hrep.hkey
  · rw [hhead, (hheapo s.headId hhne).2.2]; exact hrep.htop
  · rw [htail, (hheapo s.tailId htne).1]; exact hrep.tkey
  · rw [htail, (hheapo s.tailId htne).2.2]; exact hrep.ttop
  · -- tail cells
    intro ℓ
    rw [htail, hcells s.tailId ℓ htne ?_]
    · exact hrep.tcell ℓ
    · rintro ⟨hℓ, hteq⟩
      rcases hpredmem ℓ (le_trans hℓ hlvl) with h | ⟨e, h⟩
      · exact hrep.hne (hteq.trans h).symm
      · refine hrep.tmem ?_
        rw [← hteq] at h
        exact List.mem_map.mpr ⟨(s.tailId, e), h, rfl⟩
  · -- nodes
    intro p hp
    rcases List.mem_append.mp hp with hp | hp
    · have hpA : p ∈ A := (lows_sublist k A).mem hp
      obtain ⟨e1, e2, e3⟩ := hrep.nodes p hpA
      obtain ⟨f1, f2, f3⟩ := hheapo p.1 (hnid p hpA)
      exact ⟨f1.trans e1, f2.trans e2, f3.trans e3⟩
    · rcases List.mem_cons.mp hp with hp | hp
      · rw [hp]
        exact hheapn
      · have hpA : p ∈ A := (his_sublist k A).mem hp
        obtain ⟨e1, e2, e3⟩ := hrep.nodes p hpA
        obtain ⟨f1, f2, f3⟩ := hheapo p.1 (hnid p hpA)
        exact ⟨f1.trans e1, f2.trans e2, f3.trans e3⟩
  · -- nodup
    rw [hperm.nodup_iff]
    exact List.nodup_cons.mpr ⟨fun hmem => by
      rw [List.mem_map] at hmem
      obtain ⟨q, hq1, hq2⟩ := hmem
      exact absurd (hq2 ▸ hrep.idlt q hq1) (by omega), hrep.nodup⟩
  · -- head not a node id
    rw [hhead]
    intro hmem
    rcases List.mem_cons.mp ((hperm.mem_iff).mp hmem) with h | h
    · exact hhne h
    · exact hrep.hmem h
  · -- tail not a node id
    rw [htail]
    intro hmem
    rcases List.mem_cons.mp ((hperm.mem_iff).mp hmem) with h | h
    · exact htne h
    · exact hrep.tmem h
  · -- id bound
    intro p hp
    rw [hfr]
    rcases List.mem_append.mp hp with hp | hp
    · exact lt_trans (hrep.idlt p ((lows_sublist k A).mem hp)) (by omega)
    · rcases List.mem_cons.mp hp with hp | hp
      · rw [hp]; omega
      · exact lt_trans (hrep.idlt p ((his_sublist k A).mem hp)) (by omega)
  · rw [hhead, hfr]; exact lt_trans hrep.hlt (by omega)
  · rw [htail, hfr]; exact lt_trans hrep.tlt (by omega)
  · -- sorted keys
    exact chain_insert_aux A 0 hrep.keys hk0 hku hnm (s.fresh, ⟨k, v, lvl⟩) rfl
  · -- tops
    intro p hp
    rcases List.mem_append.mp hp with hp | hp
    · exact hrep.tops p ((lows_sublist k A).mem hp)
    · rcases List.mem_cons.mp hp with hp | hp
      · rw [hp]; exact hlvl
      · exact hrep.tops p ((his_sublist k A).mem hp)
  · -- chains
    intro ℓ hℓ
    have horig := hrep.chains ℓ hℓ
    have hsplit : levF ℓ A = lows k (levF ℓ A) ++ his k (levF ℓ A) :=
      (lows_append_his k (levF ℓ A)).symm
    rw [hsplit] at horig
    obtain ⟨h1, h2⟩ := (ChainSeg_append s ℓ _ _ _ _).mp horig
    have hpeq : predsF ℓ = lastId (lows k (levF ℓ A)) s.headId := hpred ℓ hℓ
    have hLLsub : (lows k (levF ℓ A)).Sublist A :=
      (lows_sublist _ _).trans (levF_sublist _ _)
    have hHHsub : (his k (levF ℓ A)).Sublist A :=
      (his_sublist _ _).trans (levF_sublist _ _)
    have hLLnodup : (s.headId :: (lows k (levF ℓ A)).map Prod.fst).Nodup :=
      List.nodup_cons.mpr ⟨fun hmem => hrep.hmem ((hLLsub.map Prod.fst).mem hmem),
        (hLLsub.map Prod.fst).nodup hrep.nodup⟩
    have hdisj : ∀ y ∈ (his k (levF ℓ A)).map Prod.fst,
        y ∉ (lows k (levF ℓ A)).map Prod.fst := by
      intro y hy hy2
      have hnd : ((levF ℓ A).map Prod.fst).Nodup :=
        ((levF_sublist ℓ A).map Prod.fst).nodup hrep.nodup
      rw [hsplit, List.map_append] at hnd
      exact (List.disjoint_of_nodup_append hnd) hy2 hy
    have hmemA : ∀ {y : Nat} {qs : List (Nat × ANode)}, qs.Sublist A →
        y ∈ qs.map Prod.fst → ∃ e, (y, e) ∈ A := by
      intro y qs hsub hy
      rw [List.mem_map] at hy
      obtain ⟨q, hq1, hq2⟩ := hy
      exact ⟨q.2, by rw [← hq2]; simpa using hsub.mem hq1⟩
    have hyneq : ∀ {y : Nat}, (∃ e, (y, e) ∈ A) → y ≠ s.fresh := by
      rintro y ⟨e, he⟩
      exact hnid (y, e) he
    rw [hhead, htail]
    by_cases hcase : ℓ ≤ lvl
    · have hlev' : levF ℓ (lows k A ++ (s.fresh, ⟨k, v, lvl⟩) :: his k A) =
          lows k (levF ℓ A) ++ (s.fresh, ⟨k, v, lvl⟩) :: his k (levF ℓ A) := by
        have e1 : levF ℓ (lows k A ++ (s.fresh, ⟨k, v, lvl⟩) :: his k A) =
            levF ℓ (lows k A) ++ levF ℓ ((s.fresh, ⟨k, v, lvl⟩) :: his k A) := by
          unfold levF
          exact List.filter_append _ _
        rw [e1, levF_cons_pos hcase, (lows_levF k ℓ A hpw).symm,
          (his_levF k ℓ A hpw).symm]
      rw [hlev']
      refine (ChainSeg_append s' ℓ _ _ _ _).mpr ⟨?_, ?_⟩
      · -- prefix relinked to the new node
        refine ChainSeg_relink s s' ℓ s.fresh _ _ _ h1 hLLnodup ?_ ?_
        · intro y hy hyne
          refine hcells y ℓ ?_ ?_
          · rcases hy with hy | hy
            · rw [hy]; exact hhne
            · exact hyneq (hmemA hLLsub hy)
          · rintro ⟨_, hyeq⟩
            exact hyne (by rw [hyeq, hpeq])
        · rw [← hpeq]
          exact hcellp ℓ hcase
      · refine ⟨?_, ?_⟩
        · show s'.cell (lastId (lows k (levF ℓ A)) s.headId) ℓ = _
          rw [← hpeq]
          exact hcellp ℓ hcase
        · -- the new node anchors the old suffix
          refine ChainSeg_anchor s s' ℓ _ _ _ _ h2 ?_ ?_
          · rw [hcelln ℓ hcase, hsucc ℓ hℓ]
            rfl
          · intro y hy
            refine hcells y ℓ (hyneq (hmemA hHHsub hy)) ?_
            rintro ⟨_, hyeq⟩
            rw [hpeq] at hyeq
            rcases lastId_eq_or_mem (lows k (levF ℓ A)) s.headId with h | h
            · rw [h] at hyeq
              exact hrep.hmem (by
                obtain ⟨e, he⟩ := hmemA hHHsub (hyeq ▸ hy)
                exact List.mem_map.mpr ⟨(s.headId, e), he, rfl⟩)
            · exact hdisj y hy (hyeq ▸ h)
    · have hlev' : levF ℓ (lows k A ++ (s.fresh, ⟨k, v, lvl⟩) :: his k A) =
          levF ℓ A := by
        have e1 : levF ℓ (lows k A ++ (s.fresh, ⟨k, v, lvl⟩) :: his k A) =
            levF ℓ (lows k A) ++ levF ℓ ((s.fresh, ⟨k, v, lvl⟩) :: his k A) := by
          unfold levF
          exact List.filter_append _ _
        rw [e1, levF_cons_neg hcase, (lows_levF k ℓ A hpw).symm,
          (his_levF k ℓ A hpw).symm, lows_append_his]
      rw [hlev', ← hsplit] at *
      refine ChainSeg_frame s s' ℓ _ _ _ (hrep.chains ℓ hℓ) ?_
      intro y hy
      refine hcells y ℓ ?_ (by rintro ⟨h, _⟩; exact hcase h)
      rcases hy with hy | hy
      · rw [hy]; exact hhne
      · exact hyneq (hmemA (levF_sublist ℓ A) hy)

@[simp] theorem cell_epochSet (s : SL) (e : Int) (x j : Nat) :
    ({ s with epoch := e } : SL).cell x j = s.cell x j := rfl

@[simp] theorem heap_epochSet (s : SL) (e : Int) (x : Nat) :
    ({ s with epoch := e } : SL).heap x = s.heap x := rfl

@[simp] theorem headId_epochSet (s : SL) (e : Int) :
    ({ s with epoch := e } : SL).headId = s.headId := rfl

@[simp] theorem tailId_epochSet (s : SL) (e : Int) :
    ({ s with epoch := e } : SL).tailId = s.tailId := rfl

@[simp] theorem fresh_epochSet (s : SL) (e : Int) :
    ({ s with epoch := e } : SL).fresh = s.fresh := rfl

@[simp] theorem epoch_epochSet (s : SL) (e : Int) :
    ({ s with epoch := e } : SL).epoch = e := rfl

theorem addS_spec_dup (s : SL) (A : List (Nat × ANode)) (rawK v lvl fuel : Nat)
    (hrep : RepS s A) (hmem : keyConv rawK ∈ keysOf A)
    (hfuel : A.length + 3 ≤ fuel) :
    addS fuel s rawK v lvl = some (false, s) := by
  obtain ⟨f, rfl⟩ : ∃ f, fuel = f + 1 := ⟨fuel - 1, by omega⟩
  have hku : keyConv rawK < UMAX := (hrep.keyBounds _ hmem).2
  have hrep' := RepS_epoch hrep (s.epoch + 1)
  obtain ⟨preds, succs, hfind, hps⟩ :=
    findS_spec { s with epoch := s.epoch + 1 } A (keyConv rawK) hrep'
      (le_of_lt hku) f (by omega)
  obtain ⟨q, hqA, hqk⟩ : ∃ q ∈ A, q.2.key = keyConv rawK :=
    List.mem_map.mp (by simpa [keysOf] using hmem)
  have hcc : canonCurr (keyConv rawK)
      ({ s with epoch := s.epoch + 1 } : SL).tailId A = q.1 :=
    canonCurr_eq_of_mem hrep.keysPairwise hqA hqk
  have hfound : ((({ s with epoch := s.epoch + 1 } : SL).heap
      (canonCurr (keyConv rawK)
        ({ s with epoch := s.epoch + 1 } : SL).tailId A)).key ==
      keyConv rawK) = true := by
    rw [hcc, heap_epochSet, (hrep.nodes q hqA).1, hqk]
    exact beq_self_eq_true _
  show addLoop (keyConv rawK) v lvl (f + 1) { s with epoch := s.epoch + 1 } none = _
  simp only [addLoop, hfind, hfound, if_true]
  have h : s.epoch + 1 - 1 = s.epoch := by omega
  simp [h]

theorem addS_spec_new (s : SL) (A : List (Nat × ANode)) (rawK v lvl fuel : Nat)
    (hrep : RepS s A) (hnm : keyConv rawK ∉ keysOf A)
    (hk0 : 0 < keyConv rawK) (hku : keyConv rawK < UMAX)
    (hlvl : lvl ≤ MAXL) (hfuel : A.length + 3 ≤ fuel) :
    ∃ s', addS fuel s rawK v lvl = some (true, s') ∧
      RepS s' (lows (keyConv rawK) A ++
        (s.fresh, ⟨keyConv rawK, v, lvl⟩) :: his (keyConv rawK) A) ∧
      s'.fresh = s.fresh + 1 ∧ s'.epoch = s.epoch ∧
      s'.headId = s.headId ∧ s'.tailId = s.tailId := by
  obtain ⟨f, rfl⟩ : ∃ f, fuel = f + 1 := ⟨fuel - 1, by omega⟩
  have hrep' := RepS_epoch hrep (s.epoch + 1)
  obtain ⟨preds, succs, hfind, hps⟩ :=
    findS_spec { s with epoch := s.epoch + 1 } A (keyConv rawK) hrep'
      (le_of_lt hku) f (by omega)
  have hps' : ∀ j, j ≤ MAXL →
      preds j = canonPred (keyConv rawK) s.headId (levF j A) ∧
      succs j = canonCurr (keyConv rawK) s.tailId (levF j A) := by
    intro j hj
    have := hps j hj
    simpa using this
  have hfound : ((({ s with epoch := s.epoch + 1 } : SL).heap
      (canonCurr (keyConv rawK)
        ({ s with epoch := s.epoch + 1 } : SL).tailId A)).key ==
      keyConv rawK) = false := by
    rw [beq_eq_false_iff_ne, heap_epochSet, tailId_epochSet]
    cases hhis : his (keyConv rawK) A with
    | nil =>
      rw [show canonCurr (keyConv rawK) s.tailId A = s.tailId from by
        simp [canonCurr, hhis, firstId], hrep.tkey]
      omega
    | cons q t =>
      rw [show canonCurr (keyConv rawK) s.tailId A = q.1 from by
        simp [canonCurr, hhis, firstId]]
      have hqA : q ∈ A := (his_sublist (keyConv rawK) A).mem (by rw [hhis]; simp)
      rw [(hrep.nodes q hqA).1]
      intro hcontra
      exact hnm (by
        simp only [keysOf]
        exact List.mem_map.mpr ⟨q, hqA, hcontra⟩)
  -- the intermediate states of the successful insert
  have hpne : ∀ j, j ≤ MAXL → preds j < s.fresh := by
    intro j hj
    rw [(hps' j hj).1]
    rcases canonPred_mem (keyConv rawK) s.headId (levF j A) with h | h
    · rw [h]; exact hrep.hlt
    · rw [List.mem_map] at h
      obtain ⟨q, hq1, hq2⟩ := h
      rw [← hq2]
      exact hrep.idlt q (((lows_sublist _ _).trans (levF_sublist _ _)).mem hq1)
  have hcancell : ∀ j, j ≤ MAXL →
      s.cell (preds j) j = ⟨some (succs j), false⟩ := by
    intro j hj
    rw [(hps' j hj).1, (hps' j hj).2]
    exact ChainSeg_canonPred_cell s j (keyConv rawK) (levF j A) s.headId s.tailId
      (hrep.chains j hj)
  set nd : SNode := ⟨keyConv rawK, some v, lvl, fun _ => ⟨none, false⟩⟩ with hnd
  set s2 : SL :=
    { heap := Function.update s.heap s.fresh nd
      headId := s.headId
      tailId := s.tailId
      fresh := s.fresh + 1
      epoch := s.epoch + 1 } with hs2
  set s3 : SL := initNext s2 s.fresh succs lvl with hs3
  set s4 : SL := s3.setCell (preds 0) 0 ⟨some s.fresh, false⟩ with hs4
  set s5 : SL := linkUp s.fresh preds lvl 1 s4 with hs5
  have hs2cell : ∀ x j, x ≠ s.fresh → s2.cell x j = s.cell x j := by
    intro x j hx
    rw [hs2]
    simp [SL.cell, Function.update_apply, hx]
  have hs3cell : ∀ x j, s3.cell x j =
      if x = s.fresh ∧ j ≤ lvl then ⟨some (succs j), false⟩ else s2.cell x j := by
    intro x j
    rw [hs3]
    exact initNext_cell s2 s.fresh succs lvl x j
  have hc3 : s3.cell (preds 0) 0 = ⟨some (succs 0), false⟩ := by
    have hne0 : preds 0 ≠ s.fresh := Nat.ne_of_lt (hpne 0 (Nat.zero_le _))
    rw [hs3cell, if_neg (by rintro ⟨h, _⟩; exact hne0 h), hs2cell _ _ hne0]
    exact hcancell 0 (Nat.zero_le _)
  have hside : ∀ j, 1 ≤ j → j < 1 + lvl →
      s4.cell (preds j) j = ⟨some (succs j), false⟩ := by
    intro j h1 h2
    have hjm : j ≤ MAXL := by omega
    have hnej : preds j ≠ s.fresh := Nat.ne_of_lt (hpne j hjm)
    rw [hs4, cell_setCell_ne _ _ (Or.inr (by omega)), hs3cell,
      if_neg (by rintro ⟨h, _⟩; exact hnej h), hs2cell _ _ hnej]
    exact hcancell j hjm
  have hrun : addS (f + 1) s rawK v lvl =
      some (true, { s5 with epoch := s5.epoch - 1 }) := by
    show addLoop (keyConv rawK) v lvl (f + 1) { s with epoch := s.epoch + 1 } none = _
    simp only [addLoop, hfind, hfound, Bool.false_eq_true, if_false]
    rw [← hnd, ← hs2, ← hs3]
    simp only [cas_ok hc3, if_true]
    rw [← hs4,
      addLevels_eval (keyConv rawK) s.fresh preds succs lvl 1 f s4 (by omega) hside,
      ← hs5]
  have hsk : SameSkel s2 s5 := by
    rw [hs5, hs4, hs3]
    exact sameSkel_trans (sameSkel_initNext s2 s.fresh succs lvl)
      (sameSkel_trans (sameSkel_setCell _ _ _ _) (sameSkel_linkUp _ _ _ _ _))
  obtain ⟨hskh, hskt, hskf, hske, hskheap⟩ := hsk
  have hs2h : s2.headId = s.headId := by rw [hs2]
  have hs2t : s2.tailId = s.tailId := by rw [hs2]
  have hs2f : s2.fresh = s.fresh + 1 := by rw [hs2]
  have hs2e : s2.epoch = s.epoch + 1 := by rw [hs2]
  have hs2heapn : s2.heap s.fresh = nd := by
    rw [hs2]
    simp [Function.update_apply]
  have hs2heapo : ∀ x, x ≠ s.fresh → s2.heap x = s.heap x := by
    intro x hx
    rw [hs2]
    simp [Function.update_apply, hx]
  have hcellsF : ∀ x j, x ≠ s.fresh → ¬ (j ≤ lvl ∧ x = preds j) →
      s5.cell x j = s.cell x j := by
    intro x j hx hnotp
    rw [hs5, linkUp_cell,
      if_neg (by rintro ⟨h1, h2, h3⟩; exact hnotp ⟨by omega, h3⟩), hs4,
      cell_setCell_ne _ _ ?_, hs3cell,
      if_neg (by rintro ⟨h, _⟩; exact hx h), hs2cell _ _ hx]
    by_cases hj0 : j = 0
    · left
      intro hxe
      refine hnotp ⟨by omega, ?_⟩
      rw [hj0]
      exact hxe
    · right
      exact hj0
  have hcellpF : ∀ j, j ≤ lvl → s5.cell (preds j) j = ⟨some s.fresh, false⟩ := by
    intro j hj
    by_cases hj0 : j = 0
    · rw [hs5, linkUp_cell, if_neg (by rintro ⟨h1, _⟩; omega), hj0, hs4,
        cell_setCell_same]
    · rw [hs5, linkUp_cell, if_pos ⟨by omega, by omega, rfl⟩]
  have hcellnF : ∀ j, j ≤ lvl → s5.cell s.fresh j = ⟨some (succs j), false⟩ := by
    intro j hj
    have hnej : preds j ≠ s.fresh := Nat.ne_of_lt (hpne j (by omega))
    have hne0 : preds 0 ≠ s.fresh := Nat.ne_of_lt (hpne 0 (Nat.zero_le _))
    rw [hs5, linkUp_cell, if_neg (by rintro ⟨_, _, h3⟩; exact hnej h3.symm), hs4,
      cell_setCell_ne _ _ (Or.inl (Ne.symm hne0)), hs3cell, if_pos ⟨rfl, hj⟩]
  refine ⟨{ s5 with epoch := s5.epoch - 1 }, hrun, ?_, ?_, ?_, ?_, ?_⟩
  · refine RepS_after_insert s _ A (keyConv rawK) v lvl preds succs hrep hk0 hku hnm
      hlvl ?_ ?_ ?_ ?_ ?_ ?_ ?_ ?_ (fun j hj => (hps' j hj).1)
      (fun j hj => (hps' j hj).2)
    · rw [headId_epochSet, hskh, hs2h]
    · rw [tailId_epochSet, hskt, hs2t]
    · rw [fresh_epochSet, hskf, hs2f]
    · rw [heap_epochSet]
      have h1 := (hskheap s.fresh).1
      have h2 := (hskheap s.fresh).2.1
      have h3 := (hskheap s.fresh).2.2
      rw [h1, h2, h3, hs2heapn]
      exact ⟨rfl, rfl, rfl⟩
    · intro x hx
      rw [heap_epochSet]
      have h1 := (hskheap x).1
      have h2 := (hskheap x).2.1
      have h3 := (hskheap x).2.2
      rw [h1, h2, h3, hs2heapo x hx]
      exact ⟨rfl, rfl, rfl⟩
    · intro x j hx hnp
      rw [cell_epochSet]
      exact hcellsF x j hx hnp
    · intro j hj
      rw [cell_epochSet]
      exact hcellpF j hj
    · intro j hj
      rw [cell_epochSet]
      exact hcellnF j hj
  · rw [fresh_epochSet, hskf, hs2f]
  · rw [epoch_epochSet, hske, hs2e]
    omega
  · rw [headId_epochSet, hskh, hs2h]
  · rw [tailId_epochSet, hskt, hs2t]

theorem ChainSeg_mem_cell (s : SL) (ℓ : Nat) :
    ∀ (ps : List (Nat × ANode)) (x z : Nat), ChainSeg s ℓ x ps z →
      ∀ p ∈ ps, (s.cell p.1 ℓ).mark = false
  | [], _, _, _, p, hp => by simp at hp
  | q :: rest, x, z, h, p, hp => by
    rcases List.mem_cons.mp hp with hp | hp
    · rw [hp]
      rw [ChainSeg_head_cell s ℓ rest q.1 z h.2]
    · exact ChainSeg_mem_cell s ℓ rest q.1 z h.2 p hp

theorem ids_inj {A : List (Nat × ANode)} (hnd : (A.map Prod.fst).Nodup)
    {p q : Nat × ANode} (hp : p ∈ A) (hq : q ∈ A) (h : p.1 = q.1) : p = q :=
  List.inj_on_of_nodup_map hnd hp hq h

theorem pairwise_levF {A : List (Nat × ANode)} (ℓ : Nat)
    (hpw : (keysOf A).Pairwise (· < ·)) :
    (keysOf (levF ℓ A)).Pairwise (· < ·) := by
  have hsub : (keysOf (levF ℓ A)).Sublist (keysOf A) := by
    unfold keysOf
    exact (levF_sublist ℓ A).map (fun p => p.2.key)
  exact List.Pairwise.sublist hsub hpw

theorem canonCurr_eq_at_level {s : SL} {A : List (Nat × ANode)} {k : Nat}
    (hrep : RepS s A) {q : Nat × ANode} (hqA : q ∈ A) (hqk : q.2.key = k)
    {ℓ : Nat} (hℓ : ℓ ≤ q.2.top) (z : Nat) :
    canonCurr k z (levF ℓ A) = q.1 := by
  refine canonCurr_eq_of_mem (pairwise_levF ℓ hrep.keysPairwise) ?_ hqk
  unfold levF
  rw [List.mem_filter]
  exact ⟨hqA, by simpa using hℓ⟩

theorem RepS_after_erase (s s' : SL) (A : List (Nat × ANode)) (k : Nat)
    (predsF : Nat → Nat) (q : Nat × ANode) (hrest : List (Nat × ANode))
    (hrep : RepS s A) (hhis : his k A = q :: hrest)
    (hhead : s'.headId = s.headId) (htail : s'.tailId = s.tailId)
    (hfr : s'.fresh = s.fresh)
    (hheapo : ∀ x, (s'.heap x).key = (s.heap x).key ∧
      (s'.heap x).data = (s.heap x).data ∧ (s'.heap x).top = (s.heap x).top)
    (hcells : ∀ x j, x ≠ q.1 → ¬ (j ≤ q.2.top ∧ x = predsF j) →
      s'.cell x j = s.cell x j)
    (hcellp : ∀ j, j ≤ q.2.top →
      s'.cell (predsF j) j = ⟨(s.cell q.1 j).ptr, false⟩)
    (hpred : ∀ j, j ≤ MAXL → predsF j = canonPred k s.headId (levF j A)) :
    RepS s' (lows k A ++ hrest) := by
  have hpw := hrep.keysPairwise
  have hAsplit : A = lows k A ++ q :: hrest := by
    conv_lhs => rw [← lows_append_his k A]
    rw [hhis]
  have hconsSub : (q :: hrest).Sublist A := by
    rw [← hhis]
    exact his_sublist k A
  have hrestsubA : hrest.Sublist A :=
    (List.sublist_cons_self q hrest).trans hconsSub
  have hqA : q ∈ A := hconsSub.mem (List.mem_cons_self q hrest)
  have hqtop : q.2.top ≤ MAXL := hrep.tops q hqA
  have hq1A : q.1 ∈ A.map Prod.fst := List.mem_map_of_mem Prod.fst hqA
  have hhneq : s.headId ≠ q.1 := fun h => hrep.hmem (h ▸ hq1A)
  have htneq : s.tailId ≠ q.1 := fun h => hrep.tmem (h ▸ hq1A)
  have hsubA : (lows k A ++ hrest).Sublist A := by
    conv_rhs => rw [hAsplit]
    exact List.Sublist.append (List.Sublist.refl _)
      (List.sublist_cons_self q hrest)
  have hndsplit : ((lows k A).map Prod.fst ++ q.1 :: hrest.map Prod.fst).Nodup := by
    have h := hrep.nodup
    conv at h => rw [hAsplit]
    rw [List.map_append, List.map_cons] at h
    exact h
  obtain ⟨hndL, hndQR, hdisjLQR⟩ := List.nodup_append.mp hndsplit
  obtain ⟨hqR, hndR⟩ := List.nodup_cons.mp hndQR
  have hqlows : q.1 ∉ (lows k A).map Prod.fst :=
    fun hmem => hdisjLQR hmem (List.mem_cons_self _ _)
  have hrestne : ∀ y ∈ hrest.map Prod.fst, y ≠ q.1 :=
    fun y hy h => hqR (h ▸ hy)
  have hlowsne : ∀ y ∈ (lows k A).map Prod.fst, y ≠ q.1 :=
    fun y hy h => hqlows (h ▸ hy)
  have hlowrest : ∀ y ∈ hrest.map Prod.fst, y ∉ (lows k A).map Prod.fst :=
    fun y hy hy2 => hdisjLQR hy2 (List.mem_cons_of_mem _ hy)
  have hLmap : ∀ j, ∀ y ∈ (lows k (levF j A)).map Prod.fst,
      y ∈ (lows k A).map Prod.fst := by
    intro j y hy
    rw [lows_levF k j A hpw] at hy
    exact ((levF_sublist j (lows k A)).map Prod.fst).mem hy
  have hpredmem : ∀ j, j ≤ MAXL →
      predsF j = s.headId ∨ predsF j ∈ (lows k (levF j A)).map Prod.fst := by
    intro j hj
    rw [hpred j hj]
    exact canonPred_mem k s.headId (levF j A)
  have hpredne : ∀ j, j ≤ MAXL → predsF j ≠ q.1 := by
    intro j hj
    rcases hpredmem j hj with h | h
    · rw [h]; exact hhneq
    · exact hlowsne _ (hLmap j _ h)
  refine ⟨?_, ?_, ?_, ?_, ?_, ?_, ?_, ?_, ?_, ?_, ?_, ?_, ?_, ?_, ?_, ?_⟩
  · rw [hhead, htail]; exact hrep.hne
  · rw [hhead, (hheapo s.headId).1]; exact hrep.hkey
  · rw [hhead, (hheapo s.headId).2.2]; exact hrep.htop
  · rw [htail, (hheapo s.tailId).1]; exact hrep.tkey
  · rw [htail, (hheapo s.tailId).2.2]; exact hrep.ttop
  · -- tail cells stay null and unmarked
    intro ℓ
    rw [htail, hcells s.tailId ℓ htneq ?_]
    · exact hrep.tcell ℓ
    · rintro ⟨hℓ, hteq⟩
      rcases hpredmem ℓ (le_trans hℓ hqtop) with h | h
      · exact hrep.hne (hteq.trans h).symm
      · refine hrep.tmem ?_
        have hmem := hLmap ℓ _ h
        rw [← hteq] at hmem
        exact ((lows_sublist k A).map Prod.fst).mem hmem
  · -- surviving nodes keep their heap fields
    intro p hp
    obtain ⟨e1, e2, e3⟩ := hrep.nodes p (hsubA.mem hp)
    obtain ⟨f1, f2, f3⟩ := hheapo p.1
    exact ⟨f1.trans e1, f2.trans e2, f3.trans e3⟩
  · exact (hsubA.map Prod.fst).nodup hrep.nodup
  · rw [hhead]
    intro hmem
    exact hrep.hmem ((hsubA.map Prod.fst).mem hmem)
  · rw [htail]
    intro hmem
    exact hrep.tmem ((hsubA.map Prod.fst).mem hmem)
  · intro p hp
    rw [hfr]
    exact hrep.idlt p (hsubA.mem hp)
  · rw [hhead, hfr]; exact hrep.hlt
  · rw [htail, hfr]; exact hrep.tlt
  · -- keys stay sorted: a sublist of a sorted list
    have hch := List.chain'_iff_pairwise.mp hrep.keys
    have hsubk : ((0 :: (lows k A ++ hrest).map (fun p => p.2.key)) ++
        [UMAX]).Sublist ((0 :: A.map (fun p => p.2.key)) ++ [UMAX]) :=
      List.Sublist.append ((hsubA.map (fun p => p.2.key)).cons₂ 0)
        (List.Sublist.refl _)
    exact List.chain'_iff_pairwise.mpr (List.Pairwise.sublist hsubk hch)
  · intro p hp
    exact hrep.tops p (hsubA.mem hp)
  · -- per-level chains after the unlink writes
    intro ℓ hℓ
    have hlevA' : levF ℓ (lows k A ++ hrest) =
        levF ℓ (lows k A) ++ levF ℓ hrest := by
      unfold levF
      exact List.filter_append _ _
    by_cases hcase : ℓ ≤ q.2.top
    · -- the victim was present at this level: splice the chain around it
      have hhisl : his k (levF ℓ A) = q :: levF ℓ hrest := by
        rw [his_levF k ℓ A hpw, hhis, levF_cons_pos hcase]
      have hsplitl : levF ℓ A = lows k (levF ℓ A) ++ q :: levF ℓ hrest := by
        conv_lhs => rw [← lows_append_his k (levF ℓ A)]
        rw [hhisl]
      have horig := hrep.chains ℓ hℓ
      rw [hsplitl] at horig
      obtain ⟨h1, h2⟩ := (ChainSeg_append s ℓ _ _ _ _).mp horig
      have hqcell : s.cell q.1 ℓ =
          ⟨some (firstId (levF ℓ hrest) s.tailId), false⟩ :=
        ChainSeg_head_cell s ℓ (levF ℓ hrest) q.1 s.tailId h2.2
      have hpeq : predsF ℓ = lastId (lows k (levF ℓ A)) s.headId := hpred ℓ hℓ
      have hLLsub : (lows k (levF ℓ A)).Sublist A :=
        (lows_sublist _ _).trans (levF_sublist _ _)
      have hLLnodup : (s.headId :: (lows k (levF ℓ A)).map Prod.fst).Nodup :=
        List.nodup_cons.mpr ⟨fun hmem => hrep.hmem ((hLLsub.map Prod.fst).mem hmem),
          (hLLsub.map Prod.fst).nodup hrep.nodup⟩
      have hlast : s'.cell (lastId (lows k (levF ℓ A)) s.headId) ℓ =
          ⟨some (firstId (levF ℓ hrest) s.tailId), false⟩ := by
        rw [← hpeq, hcellp ℓ hcase, hqcell]
      have hframe : ∀ y, (y = s.headId ∨ y ∈ (lows k (levF ℓ A)).map Prod.fst) →
          y ≠ lastId (lows k (levF ℓ A)) s.headId →
          s'.cell y ℓ = s.cell y ℓ := by
        intro y hy hyne
        refine hcells y ℓ ?_ ?_
        · rcases hy with hy | hy
          · rw [hy]; exact hhneq
          · exact hlowsne y (hLmap ℓ y hy)
        · rintro ⟨_, hyeq⟩
          exact hyne (by rw [hyeq, hpeq])
      have comp1 : ChainSeg s' ℓ s.headId (lows k (levF ℓ A))
          (firstId (levF ℓ hrest) s.tailId) :=
        ChainSeg_relink s s' ℓ _ _ _ _ h1 hLLnodup hframe hlast
      have hy2 : ∀ y ∈ (levF ℓ hrest).map Prod.fst,
          s'.cell y ℓ = s.cell y ℓ := by
        intro y hy
        have hyR : y ∈ hrest.map Prod.fst :=
          ((levF_sublist ℓ hrest).map Prod.fst).mem hy
        refine hcells y ℓ (hrestne y hyR) ?_
        rintro ⟨_, hyeq⟩
        rcases hpredmem ℓ hℓ with h | h
        · refine hrep.hmem ?_
          have hmem : y ∈ A.map Prod.fst := (hrestsubA.map Prod.fst).mem hyR
          rw [hyeq, h] at hmem
          exact hmem
        · exact hlowrest y hyR (hyeq ▸ hLmap ℓ _ h)
      have comp2 : ChainSeg s' ℓ (lastId (lows k (levF ℓ A)) s.headId)
          (levF ℓ hrest) s.tailId :=
        ChainSeg_anchor s s' ℓ (levF ℓ hrest) q.1 _ s.tailId h2.2 hlast hy2
      rw [hhead, htail, hlevA', ← lows_levF k ℓ A hpw]
      exact (ChainSeg_append s' ℓ _ _ _ _).mpr ⟨comp1, comp2⟩
    · -- the victim never reached this level: the chain is untouched
      have e1 : levF ℓ (lows k A ++ q :: hrest) =
          levF ℓ (lows k A) ++ levF ℓ (q :: hrest) := by
        unfold levF
        exact List.filter_append _ _
      have hlevAeq : levF ℓ A = levF ℓ (lows k A ++ hrest) := by
        conv_lhs => rw [hAsplit]
        rw [e1, levF_cons_neg hcase, hlevA']
      rw [hhead, htail, ← hlevAeq]
      refine ChainSeg_frame s s' ℓ _ _ _ (hrep.chains ℓ hℓ) ?_
      intro y hy
      refine hcells y ℓ ?_ (by rintro ⟨h, _⟩; exact hcase h)
      rcases hy with hy | hy
      · rw [hy]; exact hhneq
      · rw [List.mem_map] at hy
        obtain ⟨p, hp1, hp2⟩ := hy
        intro hyq
        have hpq : p = q :=
          ids_inj hrep.nodup ((levF_sublist ℓ A).mem hp1) hqA (by rw [hp2, hyq])
        exact hcase (hpq ▸ (levF_mem hp1).2)

theorem removeS_spec_found (s : SL) (A : List (Nat × ANode)) (k fuel : Nat)
    (hrep : RepS s A) (hmem : k ∈ keysOf A) (hfuel : A.length + 3 ≤ fuel) :
    ∃ q hrest s', his k A = q :: hrest ∧
      removeS fuel s k = some (true, s', some q.1) ∧
      RepS s' (lows k A ++ hrest) ∧
      s'.fresh = s.fresh ∧ s'.epoch = s.epoch ∧
      s'.headId = s.headId ∧ s'.tailId = s.tailId := by
  obtain ⟨f, rfl⟩ : ∃ f, fuel = f + 1 := ⟨fuel - 1, by omega⟩
  have hpw := hrep.keysPairwise
  obtain ⟨q, hqA, hqk⟩ : ∃ q ∈ A, q.2.key = k :=
    List.mem_map.mp (by simpa [keysOf] using hmem)
  obtain ⟨hrest, hhis⟩ := his_eq_cons_of_mem hpw hqA hqk
  have hku : k < UMAX := (hrep.keyBounds _ hmem).2
  have hqtop : q.2.top ≤ MAXL := hrep.tops q hqA
  have hq1A : q.1 ∈ A.map Prod.fst := List.mem_map_of_mem Prod.fst hqA
  have hhneq : s.headId ≠ q.1 := fun h => hrep.hmem (h ▸ hq1A)
  have hqlev : ∀ ℓ, ℓ ≤ q.2.top → q ∈ levF ℓ A := by
    intro ℓ hℓ
    unfold levF
    rw [List.mem_filter]
    exact ⟨hqA, by simpa using hℓ⟩
  have hqmark : ∀ ℓ, ℓ ≤ q.2.top → (s.cell q.1 ℓ).mark = false := by
    intro ℓ hℓ
    exact ChainSeg_mem_cell s ℓ (levF ℓ A) s.headId s.tailId
      (hrep.chains ℓ (le_trans hℓ hqtop)) q (hqlev ℓ hℓ)
  have hmark0 : (s.cell q.1 0).mark = false := hqmark 0 (Nat.zero_le _)
  have hrep' := RepS_epoch hrep (s.epoch + 1)
  obtain ⟨preds, succs, hfind, hps⟩ :=
    findS_spec { s with epoch := s.epoch + 1 } A k hrep' (le_of_lt hku) f (by omega)
  have hps' : ∀ j, j ≤ MAXL →
      preds j = canonPred k s.headId (levF j A) ∧
      succs j = canonCurr k s.tailId (levF j A) := by
    intro j hj
    have := hps j hj
    simpa using this
  have hcc : canonCurr k ({ s with epoch := s.epoch + 1 } : SL).tailId A = q.1 :=
    canonCurr_eq_of_mem hpw hqA hqk
  have hfound : ((({ s with epoch := s.epoch + 1 } : SL).heap
      (canonCurr k ({ s with epoch := s.epoch + 1 } : SL).tailId A)).key ==
      k) = true := by
    rw [hcc, heap_epochSet, (hrep.nodes q hqA).1, hqk]
    exact beq_self_eq_true _
  have hsucc0 : succs 0 = q.1 := by
    rw [(hps' 0 (Nat.zero_le _)).2, levF_zero]
    exact canonCurr_eq_of_mem hpw hqA hqk
  have htopq : (s.heap q.1).top = q.2.top := (hrep.nodes q hqA).2.2
  have hpredne : ∀ j, j ≤ MAXL → preds j ≠ q.1 := by
    intro j hj
    rw [(hps' j hj).1]
    rcases canonPred_mem k s.headId (levF j A) with h | h
    · rw [h]; exact hhneq
    · intro hqeq
      rw [List.mem_map] at h
      obtain ⟨p, hp1, hp2⟩ := h
      have hpA : p ∈ A := ((lows_sublist _ _).trans (levF_sublist _ _)).mem hp1
      have hlt : p.2.key < k := lows_mem_lt hp1
      have hpq : p = q := ids_inj hrep.nodup hpA hqA (by rw [hp2, hqeq])
      rw [hpq, hqk] at hlt
      omega
  set s2 : SL := markCells q.1 q.2.top ({ s with epoch := s.epoch + 1 } : SL)
    with hs2
  have hs2cell : ∀ x j, s2.cell x j =
      if x = q.1 ∧ 1 ≤ j ∧ j ≤ q.2.top then ⟨(s.cell x j).ptr, true⟩
      else s.cell x j := by
    intro x j
    rw [hs2, markCells_cell]
    rfl
  have hs2q0 : s2.cell q.1 0 = s.cell q.1 0 := by
    rw [hs2cell, if_neg (by rintro ⟨_, h1, _⟩; omega)]
  set s3 : SL := s2.setCell q.1 0 ⟨(s2.cell q.1 0).ptr, true⟩ with hs3
  have hs3cell : ∀ x j, ¬ (x = q.1 ∧ j = 0) → s3.cell x j = s2.cell x j := by
    intro x j hne
    rw [hs3, cell_setCell_ne _ _ (by tauto)]
  have hs3ptr : ∀ j, (s3.cell q.1 j).ptr = (s.cell q.1 j).ptr := by
    intro j
    by_cases hj0 : j = 0
    · rw [hj0, hs3, cell_setCell_same, hs2q0]
    · rw [hs3cell _ _ (by rintro ⟨_, h⟩; exact hj0 h), hs2cell]
      by_cases hc : (q.1 : Nat) = q.1 ∧ 1 ≤ j ∧ j ≤ q.2.top
      · rw [if_pos hc]
      · rw [if_neg hc]
  have hunlinkpre : ∀ j, 0 ≤ j → j < 0 + (q.2.top + 1) →
      s3.cell (preds j) j = ⟨some q.1, false⟩ ∧ preds j ≠ q.1 := by
    intro j _ hj2
    have hj : j ≤ q.2.top := by omega
    have hjM : j ≤ MAXL := le_trans hj hqtop
    have hne : preds j ≠ q.1 := hpredne j hjM
    refine ⟨?_, hne⟩
    rw [hs3cell _ _ (by rintro ⟨h, _⟩; exact hne h),
      hs2cell, if_neg (by rintro ⟨h, _⟩; exact hne h),
      (hps' j hjM).1,
      ChainSeg_canonPred_cell s j k (levF j A) s.headId s.tailId
        (hrep.chains j hjM),
      canonCurr_eq_at_level hrep hqA hqk hj s.tailId]
  set s6 : SL := unlinkCells q.1 preds (q.2.top + 1) 0 s3 with hs6
  have hsk13 : SameSkel ({ s with epoch := s.epoch + 1 } : SL) s3 := by
    rw [hs3, hs2]
    exact sameSkel_trans (sameSkel_markCells _ _ _) (sameSkel_setCell _ _ _ _)
  have hs3top : (s3.heap q.1).top = q.2.top := by
    rw [(hsk13.2.2.2.2 q.1).2.2]
    exact htopq
  have hsk : SameSkel ({ s with epoch := s.epoch + 1 } : SL) s6 := by
    refine sameSkel_trans hsk13 ?_
    rw [hs6]
    exact sameSkel_unlinkCells _ _ _ _ _
  have hmh : markHigh q.1 q.2.top f ({ s with epoch := s.epoch + 1 } : SL) =
      some s2 := by
    rw [hs2]
    exact markHigh_eval q.1 q.2.top f _ (by omega) (fun ℓ _ h2 => hqmark ℓ h2)
  have hmb : markBottom q.1 f s2 = some (Sum.inr s3) := by
    rw [hs3]
    exact markBottom_eval q.1 f s2 (by omega) (by rw [hs2q0]; exact hmark0)
  have hun : unlinkAll q.1 preds (q.2.top + 1) 0 s3 = Sum.inr s6 := by
    rw [hs6]
    exact unlinkAll_eval q.1 preds (q.2.top + 1) 0 s3 hunlinkpre
  have hrun : removeS (f + 1) s k =
      some (true, { s6 with epoch := s6.epoch - 1 }, some q.1) := by
    show removeLoop k (f + 1) { s with epoch := s.epoch + 1 } = _
    simp only [removeLoop, hfind, hfound, if_true, hsucc0, heap_epochSet,
      htopq, hmh, hmb, hs3top, hun]
  have hs6cell : ∀ x j, s6.cell x j =
      if 0 ≤ j ∧ j < 0 + (q.2.top + 1) ∧ x = preds j then ⟨(s3.cell q.1 j).ptr, false⟩
      else s3.cell x j := by
    intro x j
    rw [hs6, unlinkCells_cell]
  have hheapoF : ∀ x,
      (({ s6 with epoch := s6.epoch - 1 } : SL).heap x).key = (s.heap x).key ∧
      (({ s6 with epoch := s6.epoch - 1 } : SL).heap x).data = (s.heap x).data ∧
      (({ s6 with epoch := s6.epoch - 1 } : SL).heap x).top = (s.heap x).top := by
    intro x
    obtain ⟨h1, h2, h3⟩ := hsk.2.2.2.2 x
    exact ⟨h1, h2, h3⟩
  have hcellsF : ∀ x j, x ≠ q.1 → ¬ (j ≤ q.2.top ∧ x = preds j) →
      ({ s6 with epoch := s6.epoch - 1 } : SL).cell x j = s.cell x j := by
    intro x j hx hnp
    rw [cell_epochSet, hs6cell,
      if_neg (by rintro ⟨_, h2, h3⟩; exact hnp ⟨by omega, h3⟩),
      hs3cell _ _ (by rintro ⟨h, _⟩; exact hx h),
      hs2cell, if_neg (by rintro ⟨h, _⟩; exact hx h)]
  have hcellpF : ∀ j, j ≤ q.2.top →
      ({ s6 with epoch := s6.epoch - 1 } : SL).cell (preds j) j =
        ⟨(s.cell q.1 j).ptr, false⟩ := by
    intro j hj
    rw [cell_epochSet, hs6cell, if_pos ⟨Nat.zero_le _, by omega, rfl⟩, hs3ptr]
  refine ⟨q, hrest, { s6 with epoch := s6.epoch - 1 }, hhis, hrun, ?_, ?_, ?_, ?_, ?_⟩
  · exact RepS_after_erase s _ A k preds q hrest hrep hhis hsk.1 hsk.2.1
      hsk.2.2.1 hheapoF hcellsF hcellpF (fun j hj => (hps' j hj).1)
  · exact hsk.2.2.1
  · rw [epoch_epochSet, hsk.2.2.2.1]
    show s.epoch + 1 - 1 = s.epoch
    omega
  · exact hsk.1
  · exact hsk.2.1

theorem removeS_spec_absent (s : SL) (A : List (Nat × ANode)) (k fuel : Nat)
    (hrep : RepS s A) (hnm : k ∉ keysOf A) (hku : k < UMAX)
    (hfuel : A.length + 3 ≤ fuel) :
    removeS fuel s k = some (false, s, none) := by
  obtain ⟨f, rfl⟩ : ∃ f, fuel = f + 1 := ⟨fuel - 1, by omega⟩
  have hrep' := RepS_epoch hrep (s.epoch + 1)
  obtain ⟨preds, succs, hfind, hps⟩ :=
    findS_spec { s with epoch := s.epoch + 1 } A k hrep' (le_of_lt hku) f (by omega)
  have hfound : ((({ s with epoch := s.epoch + 1 } : SL).heap
      (canonCurr k ({ s with epoch := s.epoch + 1 } : SL).tailId A)).key ==
      k) = false := by
    rw [beq_eq_false_iff_ne, heap_epochSet, tailId_epochSet]
    cases hhis : his k A with
    | nil =>
      rw [show canonCurr k s.tailId A = s.tailId from by
        simp [canonCurr, hhis, firstId], hrep.tkey]
      omega
    | cons q t =>
      rw [show canonCurr k s.tailId A = q.1 from by
        simp [canonCurr, hhis, firstId]]
      have hqA : q ∈ A := (his_sublist k A).mem (by rw [hhis]; simp)
      rw [(hrep.nodes q hqA).1]
      intro hcontra
      exact hnm (by
        simp only [keysOf]
        exact List.mem_map.mpr ⟨q, hqA, hcontra⟩)
  show removeLoop k (f + 1) { s with epoch := s.epoch + 1 } = _
  simp only [removeLoop, hfind, hfound, Bool.false_eq_true, if_false]
  have h : s.epoch + 1 - 1 = s.epoch := by omega
  simp [h]

/-- The bottom-level representation invariant: the level-0 chain from head
links the live nodes of `B` in strictly increasing key order.  Unlike
`RepS` it says nothing about higher levels, so it survives `popMin` (which
unlinks at level 0 only). -/
structure WF0 (s : SL) (B : List (Nat × ANode)) : Prop where
  nodes : ∀ p ∈ B, NodeOK s p
  nodup : (B.map Prod.fst).Nodup
  hmem : s.headId ∉ B.map Prod.fst
  tmem : s.tailId ∉ B.map Prod.fst
  keys : List.Chain' (· < ·) (0 :: B.map (fun p => p.2.key) ++ [UMAX])
  chain : ChainSeg s 0 s.headId B s.tailId

theorem RepS.toWF0 {s : SL} {A : List (Nat × ANode)} (hrep : RepS s A) :
    WF0 s A := by
  refine ⟨hrep.nodes, hrep.nodup, hrep.hmem, hrep.tmem, hrep.keys, ?_⟩
  have h := hrep.chains 0 (Nat.zero_le _)
  rwa [levF_zero] at h

theorem WF0.keysPW {s : SL} {B : List (Nat × ANode)} (h : WF0 s B) :
    (B.map (fun p => p.2.key)).Pairwise (· < ·) := by
  have h1 := List.chain'_iff_pairwise.mp h.keys
  have h2 := (List.pairwise_cons.mp h1).2
  exact (List.pairwise_append.mp h2).1

theorem popMin_step_nil (s : SL) (fuel : Nat) (h : WF0 s []) (hf : 1 ≤ fuel) :
    popMinS fuel s = some (none, s, none) := by
  obtain ⟨f, rfl⟩ : ∃ f, fuel = f + 1 := ⟨fuel - 1, by omega⟩
  have hc : s.cell s.headId 0 = ⟨some s.tailId, false⟩ := h.chain
  show popMinLoop (f + 1) s = _
  simp only [popMinLoop, hc]
  simp

theorem popMin_step_cons (s : SL) (p : Nat × ANode) (B : List (Nat × ANode))
    (fuel : Nat) (h : WF0 s (p :: B)) (hf : 1 ≤ fuel) :
    ∃ s', popMinS fuel s = some (some p.2.val, s', some p.1) ∧
      WF0 s' B ∧ p.1 ∉ B.map Prod.fst ∧ p.1 ≠ firstId B s.tailId ∧
      s'.cell s.headId 0 = ⟨some (firstId B s.tailId), false⟩ ∧
      s'.headId = s.headId ∧ s'.tailId = s.tailId ∧
      s'.fresh = s.fresh ∧ s'.epoch = s.epoch ∧
      (∀ q ∈ B, p.2.key < q.2.key) := by
  obtain ⟨f, rfl⟩ : ∃ f, fuel = f + 1 := ⟨fuel - 1, by omega⟩
  have hhc : s.cell s.headId 0 = ⟨some p.1, false⟩ := h.chain.1
  have hpc : s.cell p.1 0 = ⟨some (firstId B s.tailId), false⟩ :=
    ChainSeg_head_cell s 0 B p.1 s.tailId h.chain.2
  have hpt : p.1 ≠ s.tailId := by
    intro he
    exact h.tmem (by rw [← he]; simp)
  have hph : s.headId ≠ p.1 := by
    intro he
    exact h.hmem (by rw [he]; simp)
  have hpB : p.1 ∉ B.map Prod.fst := (List.nodup_cons.mp h.nodup).1
  have hpf : p.1 ≠ firstId B s.tailId := by
    cases B with
    | nil => exact hpt
    | cons q rest =>
      intro he
      exact hpB (by rw [he]; simp [firstId])
  set s1 : SL := s.setCell p.1 0 ⟨some (firstId B s.tailId), true⟩ with hs1
  set s2 : SL := s1.setCell s.headId 0 ⟨some (firstId B s.tailId), false⟩ with hs2
  have hs1h : s1.cell s.headId 0 = ⟨some p.1, false⟩ := by
    rw [hs1, cell_setCell_ne _ _ (Or.inl hph)]
    exact hhc
  have hrun : popMinS (f + 1) s = some (some p.2.val, s2, some p.1) := by
    show popMinLoop (f + 1) s = _
    have hcas1 : s.cas p.1 0 (some (firstId B s.tailId))
        (some (firstId B s.tailId)) false true = (true, s1) := by
      rw [hs1]
      exact cas_ok hpc
    have hcas2 : s1.cas s.headId 0 (some p.1) (some (firstId B s.tailId))
        false false = (true, s2) := by
      rw [hs2]
      exact cas_ok hs1h
    have hdata : (s2.heap p.1).data = some p.2.val := by
      rw [hs2, hs1, data_setCell, data_setCell]
      exact (h.nodes p (by simp)).2.1
    simp only [popMinLoop, hhc, hpc, hpt, if_false, Bool.false_eq_true,
      hcas1, hcas2, if_true, hdata]
  have hcellB : ∀ y ∈ B.map Prod.fst, s2.cell y 0 = s.cell y 0 := by
    intro y hy
    have hy1 : y ≠ p.1 := fun he => hpB (he ▸ hy)
    have hy2 : y ≠ s.headId := fun he =>
      h.hmem (by rw [List.map_cons]; exact List.mem_cons_of_mem _ (he ▸ hy))
    rw [hs2, cell_setCell_ne _ _ (Or.inl hy2), hs1,
      cell_setCell_ne _ _ (Or.inl hy1)]
  have hwf : WF0 s2 B := by
    refine ⟨?_, (List.nodup_cons.mp h.nodup).2, ?_, ?_, ?_, ?_⟩
    · intro q hq
      obtain ⟨e1, e2, e3⟩ := h.nodes q (by simp [hq])
      refine ⟨?_, ?_, ?_⟩
      · rw [hs2, hs1, key_setCell, key_setCell]; exact e1
      · rw [hs2, hs1, data_setCell, data_setCell]; exact e2
      · rw [hs2, hs1, top_setCell, top_setCell]; exact e3
    · intro hmem
      rw [hs2, hs1, headId_setCell, headId_setCell] at hmem
      exact h.hmem (by rw [List.map_cons]; exact List.mem_cons_of_mem _ hmem)
    · intro hmem
      rw [hs2, hs1, tailId_setCell, tailId_setCell] at hmem
      exact h.tmem (by rw [List.map_cons]; exact List.mem_cons_of_mem _ hmem)
    · have hsub : ((0 :: B.map (fun p => p.2.key)) ++ [UMAX]).Sublist
          ((0 :: (p :: B).map (fun p => p.2.key)) ++ [UMAX]) := by
        refine List.Sublist.append ?_ (List.Sublist.refl _)
        rw [List.map_cons]
        exact (List.sublist_cons_self _ _).cons₂ 0
      exact List.chain'_iff_pairwise.mpr
        (List.Pairwise.sublist hsub (List.chain'_iff_pairwise.mp h.keys))
    · show ChainSeg s2 0 s2.headId B s2.tailId
      have hh : s2.headId = s.headId := by rw [hs2, hs1]; rfl
      have ht : s2.tailId = s.tailId := by rw [hs2, hs1]; rfl
      rw [hh, ht]
      refine ChainSeg_anchor s s2 0 B p.1 s.headId s.tailId h.chain.2 ?_ hcellB
      rw [hs2, cell_setCell_same]
  have hkq : ∀ q ∈ B, p.2.key < q.2.key := by
    have h1 := List.chain'_iff_pairwise.mp h.keys
    have h2 := (List.pairwise_cons.mp h1).2
    have h3 := (List.pairwise_append.mp h2).1
    rw [List.map_cons] at h3
    intro q hq
    exact (List.pairwise_cons.mp h3).1 q.2.key
      (List.mem_map_of_mem (fun p => p.2.key) hq)
  refine ⟨s2, hrun, hwf, hpB, hpf, ?_, ?_, ?_, ?_, ?_, hkq⟩
  · rw [hs2, cell_setCell_same]
  · rw [hs2, hs1]; rfl
  · rw [hs2, hs1]; rfl
  · rw [hs2, hs1]; rfl
  · rw [hs2, hs1]; rfl

theorem drain_spec (fuel : Nat) (hf : 1 ≤ fuel) :
    ∀ (n : Nat) (s : SL) (B : List (Nat × ANode)), WF0 s B → B.length ≤ n →
      drain n fuel s =
        some (B.map (fun p => some p.2.val) ++
          List.replicate (n - B.length) none) := by
  intro n
  induction n with
  | zero =>
    intro s B h hlen
    have : B = [] := List.eq_nil_of_length_eq_zero (by omega)
    subst this
    rfl
  | succ n ih =>
    intro s B h hlen
    cases B with
    | nil =>
      have hstep : drain (n + 1) fuel s =
          (drain n fuel s).map ((none : Option Nat) :: ·) := by
        show (match popMinS fuel s with
          | none => none
          | some (r, s', _) => (drain n fuel s').map (r :: ·)) = _
        rw [popMin_step_nil s fuel h hf]
      rw [hstep, ih s [] h (by simp)]
      simp [List.replicate_succ]
    | cons p B' =>
      obtain ⟨s', hrun, hwf, _⟩ := popMin_step_cons s p B' fuel h hf
      have hstep : drain (n + 1) fuel s =
          (drain n fuel s').map ((some p.2.val : Option Nat) :: ·) := by
        show (match popMinS fuel s with
          | none => none
          | some (r, t, _) => (drain n fuel t).map (r :: ·)) = _
        rw [hrun]
      rw [hstep, ih s' B' hwf (by simpa using hlen)]
      simp

theorem findW_liveMap (k : Nat) : ∀ es : List LEntry,
    liveMap ((findW k es).1 ++ (findW k es).2) = liveMap es := by
  intro es
  induction es with
  | nil => rfl
  | cons e rest ih =>
    by_cases hm : e.marked
    · have h1 : findW k (e :: rest) = findW k rest := by
        simp [findW, hm]
      rw [h1, ih]
      simp [liveMap, List.filter_cons, hm]
    · by_cases hk : e.key < k
      · have h1 : findW k (e :: rest) =
            (e :: (findW k rest).1, (findW k rest).2) := by
          simp [findW, hm, hk]
        rw [h1]
        show liveMap (e :: ((findW k rest).1 ++ (findW k rest).2)) = _
        rw [show liveMap (e :: ((findW k rest).1 ++ (findW k rest).2)) =
            (e.key, e.data) :: liveMap ((findW k rest).1 ++ (findW k rest).2) from
            by simp [liveMap, List.filter_cons, hm], ih]
        simp [liveMap, List.filter_cons, hm]
      · have h1 : findW k (e :: rest) = ([], e :: rest) := by
          simp [findW, hm, hk]
        rw [h1]
        rfl

theorem findW_head (k : Nat) : ∀ es : List LEntry,
    (findW k es).2 = [] ∨ ∃ e rest, (findW k es).2 = e :: rest ∧
      e.marked = false ∧ k ≤ e.key ∧ e ∈ es := by
  intro es
  induction es with
  | nil => exact Or.inl rfl
  | cons e rest ih =>
    by_cases hm : e.marked
    · have h1 : findW k (e :: rest) = findW k rest := by simp [findW, hm]
      rw [h1]
      rcases ih with h | ⟨e', r', h2, h3, h4, h5⟩
      · exact Or.inl h
      · exact Or.inr ⟨e', r', h2, h3, h4, List.mem_cons_of_mem _ h5⟩
    · by_cases hk : e.key < k
      · have h1 : findW k (e :: rest) =
            (e :: (findW k rest).1, (findW k rest).2) := by
          simp [findW, hm, hk]
        rw [h1]
        rcases ih with h | ⟨e', r', h2, h3, h4, h5⟩
        · exact Or.inl h
        · exact Or.inr ⟨e', r', h2, h3, h4, List.mem_cons_of_mem _ h5⟩
      · have h1 : findW k (e :: rest) = ([], e :: rest) := by
          simp [findW, hm, hk]
        rw [h1]
        exact Or.inr ⟨e, rest, rfl, by simpa using hm, by omega, by simp⟩

theorem findW_finds_live (k : Nat) : ∀ es : List LEntry,
    (es.map LEntry.key).Pairwise (· < ·) →
    ∀ u ∈ es, u.marked = false → u.key = k →
      ∃ rest, (findW k es).2 = u :: rest := by
  intro es
  induction es with
  | nil => intro _ u hu; simp at hu
  | cons e rest ih =>
    intro hpw u hu hum huk
    have hpw' := List.pairwise_cons.mp hpw
    rcases List.mem_cons.mp hu with hu | hu
    · subst hu
      have hk : ¬ (u.key < k) := by omega
      refine ⟨rest, ?_⟩
      simp [findW, hum, hk]
    · have hlt : e.key < k := by
        have := hpw'.1 u.key (List.mem_map_of_mem LEntry.key hu)
        omega
      obtain ⟨r', hr'⟩ := ih hpw'.2 u hu hum huk
      by_cases hm : e.marked
      · refine ⟨r', ?_⟩
        rw [show findW k (e :: rest) = findW k rest from by simp [findW, hm]]
        exact hr'
      · refine ⟨r', ?_⟩
        rw [show findW k (e :: rest) =
            (e :: (findW k rest).1, (findW k rest).2) from by simp [findW, hm, hlt]]
        exact hr'

theorem liveMap_mem_of (es : List LEntry) (u : LEntry) (hu : u ∈ es)
    (hum : u.marked = false) : u.key ∈ (liveMap es).map Prod.fst := by
  unfold liveMap
  rw [List.map_map, List.mem_map]
  exact ⟨u, List.mem_filter.mpr ⟨hu, by simp [hum]⟩, rfl⟩

theorem liveMap_mem_inv (es : List LEntry) (k : Nat)
    (h : k ∈ (liveMap es).map Prod.fst) :
    ∃ u ∈ es, u.marked = false ∧ u.key = k := by
  unfold liveMap at h
  rw [List.map_map, List.mem_map] at h
  obtain ⟨u, hu, hk⟩ := h
  obtain ⟨h1, h2⟩ := List.mem_filter.mp hu
  exact ⟨u, h1, by simpa using h2, hk⟩

theorem Lremove_true_iff (st : LSt) (k : Nat) (hk0 : 0 < k) (hk : k < UMAX)
    (hpw : (st.entries.map LEntry.key).Pairwise (· < ·)) :
    (Lremove st k).1 = true ↔ k ∈ (liveMap st.entries).map Prod.fst := by
  constructor
  · intro h
    rcases findW_head k st.entries with ha | ⟨e, r, ha, hm, hke, hmem⟩
    · exfalso
      rw [show (Lremove st k).1 = false from by
        simp [Lremove, ha, show ¬ (UMAX = k) from by omega]] at h
      exact Bool.false_ne_true h
    · by_cases hek : e.key = k
      · rw [← hek]
        exact liveMap_mem_of st.entries e hmem hm
      · exfalso
        rw [show (Lremove st k).1 = false from by simp [Lremove, ha, hek]] at h
        exact Bool.false_ne_true h
  · intro h
    obtain ⟨u, hu, hum, huk⟩ := liveMap_mem_inv st.entries k h
    obtain ⟨rest, hr⟩ := findW_finds_live k st.entries hpw u hu hum huk
    simp [Lremove, hr, huk]

theorem Lremove_false_frame (st : LSt) (k : Nat)
    (h : (Lremove st k).1 = false) :
    liveMap (Lremove st k).2.entries = liveMap st.entries := by
  rcases ha : (findW k st.entries).2 with _ | ⟨e, r⟩
  · have h2 : (Lremove st k).2.entries = (findW k st.entries).1 := by
      by_cases hu : UMAX = k <;> simp [Lremove, ha, hu]
    rw [h2, ← findW_liveMap k st.entries, ha, List.append_nil]
  · by_cases hek : e.key = k
    · exfalso
      rw [show (Lremove st k).1 = true from by simp [Lremove, ha, hek]] at h
      simp at h
    · have h2 : (Lremove st k).2.entries =
          (findW k st.entries).1 ++ e :: r := by
        simp [Lremove, ha, hek]
      rw [h2, ← ha, findW_liveMap k st.entries]

theorem lget_umax_aux : ∀ es : List LEntry,
    (∀ e ∈ es, e.marked = false ∧ e.key < UMAX) →
    lgetAux UMAX false (es ++ [⟨UMAX, 0, false⟩]) = some 0 := by
  intro es
  induction es with
  | nil => simp [lgetAux]
  | cons e rest ih =>
    intro h
    obtain ⟨hm, hk⟩ := h e (by simp)
    show lgetAux UMAX false (e :: (rest ++ [⟨UMAX, 0, false⟩])) = some 0
    rw [show lgetAux UMAX false (e :: (rest ++ [⟨UMAX, 0, false⟩])) =
        lgetAux UMAX e.marked (rest ++ [⟨UMAX, 0, false⟩]) from by
      simp [lgetAux, hk], hm]
    exact ih (fun e' he' => h e' (by simp [he']))

/-! ## The claims -/

/-- C1: the claim says the read operations return `false`/`none` whenever
the node holding the queried key is marked, for both containers.
`List::contains` does read the found node's own mark, but `List::get`'s
loop overwrites `marked` with the mark of the node it advances *from*, so
the final test uses the mark of the physical predecessor of `curr`: on a
list whose single interior node `(5, 7)` is marked, `get(5)` still returns
the payload `7` while `contains(5)` correctly answers `false`.  This
refutes the claim for `List::get`. -/
theorem C1_get_returns_marked_payload :
    (⟨5, 7, true⟩ : LEntry) ∈ Lphys ⟨[⟨5, 7, true⟩], 0⟩ ∧
    Lcontains ⟨[⟨5, 7, true⟩], 0⟩ 5 = false ∧
    Lget ⟨[⟨5, 7, true⟩], 0⟩ 5 = some 7 := by
  refine ⟨by simp [Lphys], by decide, by decide⟩

/-- C2 (amended): `popMin` hands a node to the reclaimer after unlinking it
at level 0 only.  On any well-formed bottom level `p :: B`, it returns the
minimum node's payload and retires exactly that node, and at that moment
the node is gone from the level-0 chain: head's level-0 cell points past it
and its id no longer occurs on the remaining (still well-formed) chain.
Nothing is claimed about levels above 0 — the original claim's "no longer
reachable from head at any level" is refuted by `C2_retire_reachable_level1`. -/
theorem C2_popMin_retire_level0 (s : SL) (p : Nat × ANode)
    (B : List (Nat × ANode)) (fuel : Nat) (h : WF0 s (p :: B)) (hf : 1 ≤ fuel) :
    ∃ s', popMinS fuel s = some (some p.2.val, s', some p.1) ∧
      s'.cell s.headId 0 = ⟨some (firstId B s.tailId), false⟩ ∧
      p.1 ≠ firstId B s.tailId ∧ p.1 ∉ B.map Prod.fst ∧ WF0 s' B := by
  obtain ⟨s', h1, h2, h3, h4, h5, _⟩ := popMin_step_cons s p B fuel h hf
  exact ⟨s', h1, h5, h4, h3, h2⟩

theorem C2_retire_witness :
    ∃ s', popMinS 1 oneNode = some (some 9, s', some 2) ∧
      s'.cell oneNode.headId 0 = ⟨some (firstId [] oneNode.tailId), false⟩ ∧
      (2 : Nat) ≠ firstId [] oneNode.tailId ∧
      (2 : Nat) ∉ ([] : List (Nat × ANode)).map Prod.fst ∧ WF0 s' [] :=
  C2_popMin_retire_level0 oneNode (2, ⟨5, 9, 0⟩) [] 1
    ⟨by intro q hq; rw [List.mem_singleton] at hq; subst hq;
        exact ⟨by decide, by decide, by decide⟩,
      by decide, by decide, by decide,
      List.chain'_cons.mpr ⟨by decide,
        List.chain'_cons.mpr ⟨by decide, List.chain'_singleton _⟩⟩,
      ⟨by decide, by show oneNode.cell 2 0 = ⟨some 1, false⟩; decide⟩⟩ (by decide)

/-- C2 counterexample: after inserting key 1 with height 1 into a fresh
skip list, `popMin` returns the payload and hands node `2` to the
reclaimer, yet one `next[1]` step from the head still reaches node `2` in
the returned state: the retired node is still physically reachable at
level 1, refuting "physically unlinked at every level where it appears". -/
theorem C2_retire_reachable_level1 :
    ((addS 20 mkSkipList 1 9 1).bind fun p =>
      (popMinS 20 p.2).map fun q => (q.1, q.2.2)) = some (some 9, some 2) ∧
    ((addS 20 mkSkipList 1 9 1).bind fun p =>
      (popMinS 20 p.2).bind fun q => stepN q.2.1 1 1 0) = some 2 := by
  exact ⟨by decide, by decide⟩

/-- C3: the claim says every user key `0 < k < 2^64 - 1` round-trips
through `add`/`contains`/`get`.  `SkipList::add` takes its key as `int`,
so the 64-bit key is truncated to 32 bits and sign-extended: for
`k = 2^63` (a valid user key), `add(k, 42)` on a fresh skip list returns
`true` but stores key 0; `contains(k)` then answers `false` and `get(k)`
answers null.  This refutes the claim. -/
theorem C3_key_truncated_through_int :
    (0 < 2 ^ 63 ∧ 2 ^ 63 < UMAX) ∧
    (addS 25 mkSkipList (2 ^ 63) 42 0).map Prod.fst = some true ∧
    ((addS 25 mkSkipList (2 ^ 63) 42 0).bind fun p =>
      containsS 25 p.2 (2 ^ 63)) = some false ∧
    ((addS 25 mkSkipList (2 ^ 63) 42 0).bind fun p =>
      getS 25 p.2 (2 ^ 63)) = some none := by
  exact ⟨by decide, by decide, by decide, by decide⟩

/-- C4: on any state whose bottom level is a well-formed chain over the
live nodes `B`, draining with `popMin` returns exactly the payloads of `B`
in chain order followed by `none` once empty; the keys of `B` are strictly
increasing, so the returned values come in strictly increasing key order;
and on an empty bottom level a single `popMin` returns `none` and leaves
the state unchanged.  This confirms the priority-queue contract. -/
theorem C4_popMin_priority_queue (s : SL) (B : List (Nat × ANode))
    (fuel n : Nat) (h : WF0 s B) (hf : 1 ≤ fuel) (hn : B.length ≤ n) :
    drain n fuel s = some (B.map (fun p => some p.2.val) ++
      List.replicate (n - B.length) none) ∧
    (B.map (fun p => p.2.key)).Pairwise (· < ·) ∧
    (B = [] → popMinS fuel s = some (none, s, none)) ∧
    (∀ p B', B = p :: B' →
      ∃ s', popMinS fuel s = some (some p.2.val, s', some p.1) ∧
        ∀ q ∈ B', p.2.key < q.2.key) := by
  refine ⟨drain_spec fuel hf n s B h hn, h.keysPW, fun hB => ?_, ?_⟩
  · subst hB
    exact popMin_step_nil s fuel h hf
  · intro p B' hB
    subst hB
    obtain ⟨s', h1, _, _, _, _, _, _, _, _, hkq⟩ :=
      popMin_step_cons s p B' fuel h hf
    exact ⟨s', h1, hkq⟩

theorem C4_drain_witness :
    drain 2 1 oneNode =
      some ([(2, (⟨5, 9, 0⟩ : ANode))].map (fun p => some p.2.val) ++
        List.replicate (2 - [(2, (⟨5, 9, 0⟩ : ANode))].length) none) ∧
    ([(2, (⟨5, 9, 0⟩ : ANode))].map (fun p => p.2.key)).Pairwise (· < ·) ∧
    ([(2, (⟨5, 9, 0⟩ : ANode))] = [] →
      popMinS 1 oneNode = some (none, oneNode, none)) ∧
    (∀ p B', [(2, (⟨5, 9, 0⟩ : ANode))] = p :: B' →
      ∃ s', popMinS 1 oneNode = some (some p.2.val, s', some p.1) ∧
        ∀ q ∈ B', p.2.key < q.2.key) :=
  C4_popMin_priority_queue oneNode [(2, ⟨5, 9, 0⟩)] 1 2
    ⟨by intro q hq; rw [List.mem_singleton] at hq; subst hq;
        exact ⟨by decide, by decide, by decide⟩,
      by decide, by decide, by decide,
      List.chain'_cons.mpr ⟨by decide,
        List.chain'_cons.mpr ⟨by decide, List.chain'_singleton _⟩⟩,
      ⟨by decide, by show oneNode.cell 2 0 = ⟨some 1, false⟩; decide⟩⟩
    (by decide) (by decide)

/-- C5: `remove(k)` returns `true` iff a live node with key `k` is present
at the start, and a `false` return leaves the live key/value content
unchanged — for both containers, over the user key domain.  For the list
this holds on any key-sorted state; for the skip list on any clean
represented state (the `false` path returns the state entirely unchanged). -/
theorem C5_remove_contract :
    (∀ (st : LSt) (k : Nat), 0 < k → k < UMAX →
      (st.entries.map LEntry.key).Pairwise (· < ·) →
      (((Lremove st k).1 = true) ↔ k ∈ (liveMap st.entries).map Prod.fst) ∧
      ((Lremove st k).1 = false →
        liveMap (Lremove st k).2.entries = liveMap st.entries)) ∧
    (∀ (s : SL) (A : List (Nat × ANode)) (k fuel : Nat), RepS s A →
      k < UMAX → A.length + 3 ≤ fuel →
      ∃ r s' ret, removeS fuel s k = some (r, s', ret) ∧
        ((r = true) ↔ k ∈ keysOf A) ∧
        (r = false → s' = s)) := by
  constructor
  · intro st k hk0 hk hpw
    exact ⟨Lremove_true_iff st k hk0 hk hpw, Lremove_false_frame st k⟩
  · intro s A k fuel hrep hku hfuel
    by_cases hmem : k ∈ keysOf A
    · obtain ⟨q, hrest, s', hhis, hrun, _⟩ :=
        removeS_spec_found s A k fuel hrep hmem hfuel
      refine ⟨true, s', some q.1, hrun, ⟨fun _ => hmem, fun _ => rfl⟩, ?_⟩
      intro h
      simp at h
    · refine ⟨false, s, none,
        removeS_spec_absent s A k fuel hrep hmem hku hfuel,
        iff_of_false (by simp) hmem, fun _ => rfl⟩

theorem C5_remove_witness :
    (((Lremove ⟨[⟨5, 7, false⟩], 0⟩ 5).1 = true) ↔
      5 ∈ (liveMap [⟨5, 7, false⟩]).map Prod.fst) ∧
    ((Lremove ⟨[⟨5, 7, false⟩], 0⟩ 5).1 = false →
      liveMap (Lremove ⟨[⟨5, 7, false⟩], 0⟩ 5).2.entries =
        liveMap [⟨5, 7, false⟩]) :=
  C5_remove_contract.1 ⟨[⟨5, 7, false⟩], 0⟩ 5 (by decide) (by decide) (by decide)

/-- C6: the claim says every mutating operation balances `enter()` with
exactly one `leave()` on every return path.  `List::add`'s duplicate path
returns `false` without calling `leaveEpoch`: starting from protection
depth 0, a duplicate insert leaves the depth at 1, while a successful
insert correctly restores 0.  This refutes the claim. -/
theorem C6_duplicate_add_leaks_epoch :
    (Ladd ⟨[⟨5, 7, false⟩], 0⟩ 5 8).1 = false ∧
    (Ladd ⟨[⟨5, 7, false⟩], 0⟩ 5 8).2.epoch = 1 ∧
    (Ladd ⟨[], 0⟩ 5 7).1 = true ∧
    (Ladd ⟨[], 0⟩ 5 7).2.epoch = 0 := by
  exact ⟨by decide, by decide, by decide, by decide⟩

/-- C7: the claim says every operation preserves the level-0 invariant
(strictly increasing keys from head to tail, no duplicate live key).  The
fresh skip list satisfies it, but `SkipList::add`'s `int` key parameter
truncates `k = 2^32` to key 0: the insert reports success and the level-0
chain then reads keys `0, 0, 2^64-1` — not strictly increasing (the new
node duplicates the head sentinel's key).  This refutes the claim. -/
theorem C7_add_breaks_level0_order :
    chain0Pairs 25 mkSkipList 0 = some [(0, false), (UMAX, false)] ∧
    List.Chain' (· < ·) [0, UMAX] ∧
    (addS 25 mkSkipList (2 ^ 32) 11 0).map Prod.fst = some true ∧
    ((addS 25 mkSkipList (2 ^ 32) 11 0).bind fun p => chain0Pairs 25 p.2 0) =
      some [(0, false), (0, false), (UMAX, false)] ∧
    ¬ List.Chain' (· < ·) [0, 0, UMAX] := by
  refine ⟨by decide,
    List.chain'_cons.mpr ⟨by decide, List.chain'_singleton _⟩,
    by decide, by decide, ?_⟩
  intro h
  exact absurd (List.chain'_cons.mp h).1 (by decide)

/-- C8: the claim says that for every user key, after `add(k, a)` succeeds
a second `add(k, b)` is rejected and `get(k)` returns `a`.  For the user
key `k = 2^63` the duplicate is indeed rejected (both calls truncate to
key 0), but `get(k)` — whose parameter is a genuine `uint64_t` — finds no
node with key `2^63` and returns null instead of `a`; the payload actually
sits under key 0.  This refutes the round-trip half of the claim. -/
theorem C8_roundtrip_broken_for_truncated_keys :
    (0 < 2 ^ 63 ∧ 2 ^ 63 < UMAX) ∧
    (addS 25 mkSkipList (2 ^ 63) 5 0).map Prod.fst = some true ∧
    ((addS 25 mkSkipList (2 ^ 63) 5 0).bind fun p =>
      addS 25 p.2 (2 ^ 63) 6 0).map Prod.fst = some false ∧
    ((addS 25 mkSkipList (2 ^ 63) 5 0).bind fun p =>
      (addS 25 p.2 (2 ^ 63) 6 0).bind fun q => getS 25 q.2 (2 ^ 63)) =
      some none ∧
    ((addS 25 mkSkipList (2 ^ 63) 5 0).bind fun p =>
      (addS 25 p.2 (2 ^ 63) 6 0).bind fun q => getS 25 q.2 0) =
      some (some 5) := by
  exact ⟨by decide, by decide, by decide, by decide, by decide⟩

set_option maxHeartbeats 1000000 in
/-- C9: the single-threaded smoke test, run end to end on the model with
height 0 for each of the inserted keys 1, 3, 2 (values equal to keys):
all three inserts succeed, `contains(2)` is `true`, `contains(4)` is
`false`, the first `remove(3)` returns `true` and the second `false`,
and three `popMin` calls return the value for key 1, the value for key 2,
and then `none`.  This confirms the claim. -/
theorem C9_single_thread_smoke :
    ((addS 8 mkSkipList 1 1 0).bind fun p =>
      (addS 8 p.2 3 3 0).bind fun q =>
      (addS 8 q.2 2 2 0).bind fun r =>
      (containsS 8 r.2 2).bind fun c2 =>
      (containsS 8 r.2 4).bind fun c4 =>
      (removeS 8 r.2 3).bind fun rm1 =>
      (removeS 8 rm1.2.1 3).bind fun rm2 =>
      (popMinS 8 rm2.2.1).bind fun m1 =>
      (popMinS 8 m1.2.1).bind fun m2 =>
      (popMinS 8 m2.2.1).map fun m3 =>
        (p.1 && q.1 && r.1 && c2 && !c4 && rm1.1 && !rm2.1,
          m1.1, m2.1, m3.1)) =
      some (true, some 1, some 2, none) := by
  decide

/-- C10: on every list state whose interior entries are unmarked with keys
below the tail sentinel's (every state the sequential operations can
reach, the fresh empty list included), the reserved sentinel keys are
reported as members: `contains(0)` is `true`, and `get(0)` and
`get(2^64-1)` return the sentinels' default-constructed payload `0`
rather than null, although no caller ever inserted those keys.  This
confirms the (implicit) claim. -/
theorem C10_sentinel_keys_visible (st : LSt)
    (hm : ∀ e ∈ st.entries, e.marked = false)
    (hk : ∀ e ∈ st.entries, e.key < UMAX) :
    Lcontains st 0 = true ∧ Lget st 0 = some 0 ∧ Lget st UMAX = some 0 := by
  refine ⟨?_, ?_, ?_⟩
  · simp [Lcontains, Lphys, lconsAux]
  · simp [Lget, Lphys, lgetAux]
  · show lgetAux UMAX false
      (⟨0, 0, false⟩ :: (st.entries ++ [⟨UMAX, 0, false⟩])) = some 0
    rw [show lgetAux UMAX false
        (⟨0, 0, false⟩ :: (st.entries ++ [⟨UMAX, 0, false⟩])) =
        lgetAux UMAX false (st.entries ++ [⟨UMAX, 0, false⟩]) from by
      simp [lgetAux, UMAX]]
    exact lget_umax_aux st.entries (fun e he => ⟨hm e he, hk e he⟩)

theorem C10_sentinel_witness :
    Lcontains ⟨[⟨5, 7, false⟩], 0⟩ 0 = true ∧
    Lget ⟨[⟨5, 7, false⟩], 0⟩ 0 = some 0 ∧
    Lget ⟨[⟨5, 7, false⟩], 0⟩ UMAX = some 0 :=
  C10_sentinel_keys_visible ⟨[⟨5, 7, false⟩], 0⟩ (by decide) (by decide)
